import Mathlib

/-!
# blopy: decoding numpy BLOBs (`numpy_reader.c`, `blopy.c`)

A shallow embedding of the C sources.

Conventions of the embedding
* `ptr_inputBlob` is a bare pointer: the code never learns the length of the
  BLOB. It is embedded as `Mem`, the bytes found at `ptr_inputBlob[0]`,
  `ptr_inputBlob[1]`, ... (the BLOB followed by whatever memory follows it).
  Every read the code performs is logged, so that statements about the
  indices that are read can be made against an actual length `L`.
* `int` is 32 bit, `short` 16 bit, `long` 64 bit, little-endian host
  (`static_assert(sizeof(int) * CHAR_BIT == 32)` in the source). Integer
  conversions wrap (two's complement), and so does `int` arithmetic.
* Memory that the C code reads without having written it (uninitialised
  stack arrays, fresh `malloc` blocks, bytes past the end of an array) is
  not invented by the embedding: it is a parameter, `Uninit`.
-/

namespace Blopy

/-! ## Machine integers -/

/-- Conversion of an integer to `short` (16 bit, two's complement). -/
def toShort (x : Int) : Int :=
  if x % 65536 < 32768 then x % 65536 else x % 65536 - 65536

/-- Conversion of an integer to `int` (32 bit, two's complement). -/
def toInt32 (x : Int) : Int :=
  if x % 4294967296 < 2147483648 then x % 4294967296 else x % 4294967296 - 4294967296

/-- Conversion of an integer to `long` (64 bit, two's complement). -/
def toInt64 (x : Int) : Int :=
  if x % 18446744073709551616 < 9223372036854775808 then x % 18446744073709551616
  else x % 18446744073709551616 - 18446744073709551616

/-- Conversion of an integer to `unsigned int` (32 bit). -/
def toUInt32 (x : Int) : Nat := (x % 4294967296).toNat

/-- Conversion of an integer to `unsigned short` (16 bit). -/
def toUShort (x : Int) : Nat := (x % 65536).toNat

/-! ## The input BLOB -/

/-- The memory reachable through `unsigned char* ptr_inputBlob`. -/
abbrev Mem := Nat → Nat

/-- The value of `ptr_inputBlob[i]`, an `unsigned char`. -/
def rd (p : Mem) (i : Nat) : Nat := p i % 256

/-- The memory that holds the bytes `l` at its start, and zero bytes after. -/
def ofBytes (l : List Nat) : Mem := fun i => l.getD i 0

/-- The code points of a text, as bytes. -/
def bytesOf (s : String) : List Nat := s.toList.map Char.toNat

/-! ## `read_magic` -/

def MAGIC_NUMPY : List Nat := [147, 78, 85, 77, 80, 89]
def MAGIC_LEN : Nat := 6
def VERSION_LEN : Nat := 2

/-- The first loop of `read_magic`, `n` iterations left, at index `i`:
whether all the bytes compared so far equal `MAGIC_NUMPY` (the loop returns
at the first byte that differs), and the log of the reads. -/
def magic_loop (p : Mem) : Nat → Nat → List Nat → Bool × List Nat
  | 0, _, reads => (true, reads)
  | n + 1, i, reads =>
    if rd p i ≠ MAGIC_NUMPY.getD i 0 then (false, i :: reads)
    else magic_loop p n (i + 1) (i :: reads)

/-- The second loop of `read_magic`: `out += ptr_inputBlob[MAGIC_LEN+i] *
pow(10, VERSION_LEN-i-1)` on an `unsigned short`. The powers of ten are 10
and 1, exact in `double`. -/
def version_loop (p : Mem) : Nat → Nat → Nat × List Nat → Nat × List Nat
  | 0, _, s => s
  | n + 1, i, (out, reads) =>
    version_loop p n (i + 1)
      (toUShort (out + rd p (MAGIC_LEN + i) * 10 ^ (VERSION_LEN - i - 1)),
        (MAGIC_LEN + i) :: reads)

/-- The result of a function of `numpy_reader.c` together with the log of
the indices of `ptr_inputBlob` that it read, the latest read first. -/
structure Traced (α : Type) where
  val : α
  reads : List Nat

/-- `short read_magic(unsigned char* ptr_inputBlob)`, with its reads. -/
def read_magic_traced (p : Mem) : Traced Int :=
  let m := magic_loop p MAGIC_LEN 0 []
  if m.1 then
    let v := version_loop p VERSION_LEN 0 (0, m.2)
    ⟨toShort v.1, v.2⟩
  else ⟨-1, m.2⟩

/-- The value returned by `read_magic`. -/
def read_magic (p : Mem) : Int := (read_magic_traced p).val

/-! ## `read_header_length` -/

/-- `static int read_header_length(unsigned char* ptr_inputBlob)`: the sum is
computed in `unsigned int` and converted to `int`. -/
def read_header_length_traced (p : Mem) (reads : List Nat) : Traced Int :=
  ⟨toInt32 (toUInt32 (rd p (MAGIC_LEN + VERSION_LEN + 1) * 256 + rd p (MAGIC_LEN + VERSION_LEN))),
    (MAGIC_LEN + VERSION_LEN) :: (MAGIC_LEN + VERSION_LEN + 1) :: reads⟩

/-- The value returned by `read_header_length`. -/
def read_header_length (p : Mem) : Int := (read_header_length_traced p []).val

/-! ## libc: `atoi`, `strtok` -/

/-- C `isspace` in the "C" locale. -/
def isspace (c : Nat) : Bool := c == 32 || (9 ≤ c && c ≤ 13)

/-- C `isdigit`. -/
def isdigit (c : Nat) : Bool := 48 ≤ c && c ≤ 57

/-- The value of the leading decimal digits of a text, after `acc`. -/
def digits_value : List Nat → Nat → Nat
  | [], acc => acc
  | c :: cs, acc => if isdigit c then digits_value cs (10 * acc + (c - 48)) else acc

/-- The text with an optional sign removed, and whether the sign was `-`. -/
def strip_sign : List Nat → Bool × List Nat
  | 45 :: cs => (true, cs)
  | 43 :: cs => (false, cs)
  | cs => (false, cs)

/-- C `strtol(s, NULL, 10)`: white space, an optional sign, decimal digits;
a value outside `long` is clamped. -/
def strtol (s : List Nat) : Int :=
  let t := strip_sign (s.dropWhile isspace)
  let v : Int := digits_value t.2 0
  if t.1 then max (-9223372036854775808) (-v) else min 9223372036854775807 v

/-- C `atoi`, as glibc defines it: `(int) strtol(s, NULL, 10)`. For a value
that fits `int` this is the value the C standard prescribes. -/
def atoi (s : List Nat) : Int := toInt32 (strtol s)

/-- The C string that starts a run of bytes: the bytes before the first NUL. -/
def cstr (l : List Nat) : List Nat := l.takeWhile (fun c => c != 0)

/-- The tokens that the `strtok(s, delim)`, `strtok(NULL, delim)`, ... calls
return until `NULL`, for a one-character delimiter: the maximal non-empty
runs of other characters. `cur` is the token being collected. -/
def strtok_tokens (delim : Nat) : List Nat → List Nat → List (List Nat)
  | [], cur => if cur.isEmpty then [] else [cur]
  | c :: cs, cur =>
    if c = delim then
      if cur.isEmpty then strtok_tokens delim cs [] else cur :: strtok_tokens delim cs []
    else strtok_tokens delim cs (cur ++ [c])

/-! ## `read_header` -/

/-- `struct Header_data` of `numpy_reader.h`. The two pointers are embedded
as what they point to when `read_header` returns: `shape` as the `int`s that
were stored through it, `descr` as the `descr_len` characters before the
terminating NUL. -/
structure Header_data where
  fortran_order : Bool
  shape : List Int
  shape_len : Int
  size : Int
  descr : List Nat
  descr_len : Int
  type : Nat
  littleEndian : Bool
  wordsize_in_bytes : Nat
  deriving DecidableEq, Repr

/-- The memory that `numpy_reader.c` reads without having written it. The
key of a `Nat →` field is the header index at which the key was found, as
each block is allocated anew there. -/
structure Uninit where
  /-- The initial contents of `char buffer[header_length]`. -/
  buffer : Nat → Nat
  /-- The bytes that follow `tuple[counter]` on the stack, before the first NUL. -/
  tuple_tail : Nat → List Nat
  /-- The bytes that follow the NUL of `desc` on the heap. -/
  desc_tail : Nat → List Nat
  /-- The contents of the `malloc`ed `Header_data` of `BLOB_to_str`. -/
  header_data : Header_data
  /-- The C string found in the `malloc`ed `out` of `BLOB_to_str`. -/
  out : List Char

def SIGN_SQ : Nat := 39
def SIGN_DQ : Nat := 34

/-- `start_hdr = MAGIC_LEN+VERSION_LEN+2`. -/
def start_hdr : Nat := MAGIC_LEN + VERSION_LEN + 2

/-- The state of an inner scan of `read_header`: the shared `buffer`, the
`counter` of characters moved to it, the log of the reads. -/
structure Scan where
  buffer : Nat → Nat
  counter : Nat
  reads : List Nat

/-- `buffer[counter++] = cur_char`. -/
def Scan.push (s : Scan) (c : Nat) : Scan :=
  { s with buffer := Function.update s.buffer s.counter c, counter := s.counter + 1 }

/-- The loop `for (int j = i; j < header_length; j++)` of the `descr` key,
`n = header_length - j` iterations left: moves the characters between the
next two quote signs to `buffer`. -/
def descr_loop (p : Mem) : Nat → Nat → Bool → Scan → Scan
  | 0, _, _, s => s
  | n + 1, j, is_open, s =>
    let cur_char := rd p (start_hdr + j)
    let s := { s with reads := (start_hdr + j) :: s.reads }
    if cur_char = SIGN_SQ ∨ cur_char = SIGN_DQ then
      if is_open then s else descr_loop p n (j + 1) true s
    else if is_open then descr_loop p n (j + 1) is_open (s.push cur_char)
    else descr_loop p n (j + 1) is_open s

/-- The loop `for (int j = i; j < header_length; j++)` of the `shape` key:
moves the characters between `(` and the next `)` to `buffer`. -/
def shape_loop (p : Mem) : Nat → Nat → Bool → Scan → Scan
  | 0, _, _, s => s
  | n + 1, j, is_open, s =>
    let cur_char := rd p (start_hdr + j)
    let s := { s with reads := (start_hdr + j) :: s.reads }
    if cur_char = '('.toNat then shape_loop p n (j + 1) true s
    else if cur_char = ')'.toNat then s
    else if is_open then shape_loop p n (j + 1) is_open (s.push cur_char)
    else shape_loop p n (j + 1) is_open s

/-- The loop `for (int j = i; j < header_length; j++)` of the `fortran_order`
key: the value found (`T` or `F`), if any, and the log of the reads. -/
def fortran_loop (p : Mem) : Nat → Nat → List Nat → Option Bool × List Nat
  | 0, _, reads => (none, reads)
  | n + 1, j, reads =>
    let cur_char := rd p (start_hdr + j)
    if cur_char = 'T'.toNat then (some true, (start_hdr + j) :: reads)
    else if cur_char = 'F'.toNat then (some false, (start_hdr + j) :: reads)
    else fortran_loop p n (j + 1) ((start_hdr + j) :: reads)

/-- The first `n` characters of `buffer`. -/
def buffer_head (buffer : Nat → Nat) (n : Nat) : List Nat := (List.range n).map buffer

/-- The loop `header_data->size *= shape[j] > 0 ? shape[j] : 1` over the
shape, from `size = 1`. The product is an `int`: where C leaves the signed
overflow undefined, the embedding wraps. -/
def shape_size (shape : List Int) : Int :=
  shape.foldl (fun size d => toInt32 (size * (if d > 0 then d else 1))) 1

/-- The state of the main loop of `read_header`. -/
structure State where
  header_data : Header_data
  buffer : Nat → Nat
  reads : List Nat

/-- The body of the `descr` key, the key found at index `i0` and `i = i0 + 6`. -/
def descr_key (p : Mem) (u : Uninit) (header_length i0 : Nat) (s : State) : State :=
  let i := i0 + 6
  let r := descr_loop p (header_length - i) i false ⟨s.buffer, 0, s.reads⟩
  -- `desc`: `counter` characters and a NUL, then the heap
  let desc := buffer_head r.buffer r.counter ++ 0 :: u.desc_tail i0
  { header_data :=
      { s.header_data with
        descr := buffer_head r.buffer r.counter
        descr_len := r.counter
        littleEndian := desc.getD 0 0 = '<'.toNat ∨ desc.getD 0 0 = '|'.toNat
        type := desc.getD 1 0
        wordsize_in_bytes := toUInt32 (atoi (desc.drop 2)) }
    buffer := r.buffer
    reads := r.reads }

/-- The body of the `shape` key, the key found at index `i0` and `i = i0 + 6`. -/
def shape_key (p : Mem) (u : Uninit) (header_length i0 : Nat) (s : State) : State :=
  let i := i0 + 6
  let r := shape_loop p (header_length - i) i false ⟨s.buffer, 0, s.reads⟩
  -- `memcpy(tuple, buffer, counter+1)`; `strtok` then reads `tuple` up to a NUL
  let tuple := cstr (buffer_head r.buffer (r.counter + 1) ++ u.tuple_tail i0)
  let shape := (strtok_tokens ','.toNat tuple []).map atoi
  { header_data :=
      { s.header_data with
        shape := shape
        shape_len := shape.length
        size := shape_size shape }
    buffer := r.buffer
    reads := r.reads }

/-- The loop `for (int i = 0; i < header_length; i++)` of `read_header`.
The index grows in every iteration, so `header_length` units of `fuel`
are enough for the loop to end by its own test. -/
def header_loop (p : Mem) (u : Uninit) (header_length : Nat) : Nat → Nat → State → State
  | 0, _, s => s
  | fuel + 1, i, s =>
    if header_length ≤ i then s
    else
      let cur_char := rd p (start_hdr + i)
      let s := { s with reads := (start_hdr + i) :: s.reads }
      if cur_char = 'd'.toNat then
        let cur_char := rd p (start_hdr + i + 5)
        let s := { s with reads := (start_hdr + i + 5) :: s.reads }
        if cur_char = SIGN_SQ ∨ cur_char = SIGN_DQ then
          header_loop p u header_length fuel (i + 6 + 1) (descr_key p u header_length i s)
        else header_loop p u header_length fuel (i + 1) s
      else if cur_char = 's'.toNat then
        let cur_char := rd p (start_hdr + i + 5)
        let s := { s with reads := (start_hdr + i + 5) :: s.reads }
        if cur_char = SIGN_SQ ∨ cur_char = SIGN_DQ then
          header_loop p u header_length fuel (i + 6 + 1) (shape_key p u header_length i s)
        else header_loop p u header_length fuel (i + 1) s
      else if cur_char = 'f'.toNat then
        let cur_char := rd p (start_hdr + i + 13)
        let s := { s with reads := (start_hdr + i + 13) :: s.reads }
        if cur_char = SIGN_SQ ∨ cur_char = SIGN_DQ then
          let i := i + 14
          let r := fortran_loop p (header_length - i) i s.reads
          match r.1 with
          | some true =>
            header_loop p u header_length fuel (i + 4 + 1)
              { s with header_data := { s.header_data with fortran_order := true }, reads := r.2 }
          | some false =>
            header_loop p u header_length fuel (i + 5 + 1)
              { s with header_data := { s.header_data with fortran_order := false }, reads := r.2 }
          | none => header_loop p u header_length fuel (i + 1) { s with reads := r.2 }
        else header_loop p u header_length fuel (i + 1) s
      else if cur_char = '}'.toNat then s
      else header_loop p u header_length fuel (i + 1) s

/-- What `read_header` leaves behind: the value returned, the caller's
`Header_data`, and the log of the reads of `ptr_inputBlob`. -/
structure Outcome where
  ret : Int
  header_data : Header_data
  reads : List Nat

/-- `int read_header(unsigned char* ptr_inputBlob, Header_data* header_data)`;
`hd` is what `*header_data` holds when the function is called. -/
def read_header (p : Mem) (hd : Header_data) (u : Uninit) : Outcome :=
  let version := read_magic_traced p
  if version.val = -1 then ⟨-1, hd, version.reads⟩
  else if version.val < 10 ∨ version.val ≥ 20 then ⟨-2, hd, version.reads⟩
  else
    let header_length := read_header_length_traced p version.reads
    if header_length.val ≤ 0 then ⟨-3, hd, header_length.reads⟩
    else
      let s := header_loop p u header_length.val.toNat header_length.val.toNat 0
        ⟨hd, u.buffer, header_length.reads⟩
      ⟨header_length.val + start_hdr, s.header_data, s.reads⟩

/-! ## `BLOB_to_str` -/

/-- The floating-point conversions of libc `snprintf`, which the embedding
does not define. The value converted is given by the word size of the
descriptor and the bytes it is loaded from. -/
structure Printf where
  /-- The text of `%6.7g`, for `out_float`. -/
  g_float : Nat → List Nat → List Char
  /-- The text of `%4.g`, for `creal(out_complex)`: word size, the bytes of
  the two components. -/
  g_creal : Nat → List Nat → List Nat → List Char
  /-- The text of `%3.g`, for `cimag(out_complex)`. -/
  g_cimag : Nat → List Nat → List Nat → List Char

/-- The `w` bytes of the payload from offset `off` on. -/
def word_bytes (p : Mem) (off w : Nat) : List Nat := (List.range w).map (fun b => rd p (off + b))

/-- The indices of those bytes, as logged. -/
def word_reads (off w : Nat) : List Nat := ((List.range w).map (fun b => off + b)).reverse

/-- The unsigned value of a little-endian word. -/
def le_value : List Nat → Nat
  | [] => 0
  | b :: bs => b + 256 * le_value bs

/-- The text of `%i`. -/
def decimal (x : Int) : List Char :=
  if x < 0 then '-' :: Nat.toDigits 10 x.natAbs else Nat.toDigits 10 x.toNat

/-- What `snprintf(buffer, out_col_width, ...)` leaves in `buffer`, with
`out_col_width = 16`: at most 15 characters of the text. -/
def snprintf16 (text : List Char) : List Char := text.take 15

/-- The state of the rendering: the C string in `out`, the log of the reads. -/
structure Out where
  text : List Char
  reads : List Nat

/-- `strcat(out, buffer)`, after the loads at `reads` (latest first). -/
def Out.add (o : Out) (chunk : List Char) (reads : List Nat) : Out :=
  ⟨o.text ++ chunk, reads ++ o.reads⟩

/-- The value assigned to `int out_int` in iteration `j` of the `'i'` kind,
for the word sizes 8, 4 and 2; `none` in the `else` branch, which leaves
the loop. `data` is the offset of the payload. -/
def out_int (p : Mem) (data w j : Nat) : Option Int :=
  if w = 8 then
    -- `out_int = ((long*)data)[j]`: a `long` converted to `int`
    some (toInt32 (toInt64 (le_value (word_bytes p (data + 8 * j) 8))))
  else if w = 4 then
    -- `out_int = ((int*)data)[j]`
    some (toInt32 (le_value (word_bytes p (data + 4 * j) 4)))
  else if w = 2 then
    -- `out_int = ((short*)data)[j]`
    some (toShort (le_value (word_bytes p (data + 2 * j) 2)))
  else none

/-- The loop `for (int j = 0; j < N; j++)` of the `'i'` kind, `n = N - j`
iterations left: `snprintf(buffer, out_col_width, "%i\t", out_int)` and
`strcat(out, buffer)`. -/
def int_loop (p : Mem) (data w : Nat) : Nat → Nat → Out → Out
  | 0, _, o => o
  | n + 1, j, o =>
    match out_int p data w j with
    | some v =>
      int_loop p data w n (j + 1)
        (o.add (snprintf16 (decimal v ++ ['\t'])) (word_reads (data + w * j) w))
    | none => o

/-- The loop `for (int j = 0; j < N; j++)` of the `'f'` kind. -/
def float_loop (f : Printf) (p : Mem) (data w : Nat) : Nat → Nat → Out → Out
  | 0, _, o => o
  | n + 1, j, o =>
    if w = 8 ∨ w = 4 ∨ w = 16 then
      float_loop f p data w n (j + 1)
        (o.add (snprintf16 (f.g_float w (word_bytes p (data + w * j) w) ++ ['\t']))
          (word_reads (data + w * j) w))
    else o

/-- The loop `for (int j = 0; j < N*2; j=j+2)` of the `'c'` kind, `n`
iterations left; the components are `w / 2` bytes wide. -/
def complex_loop (f : Printf) (p : Mem) (data w : Nat) : Nat → Nat → Out → Out
  | 0, _, o => o
  | n + 1, j, o =>
    if w = 16 ∨ w = 8 ∨ w = 32 then
      let re := word_bytes p (data + w / 2 * j) (w / 2)
      let im := word_bytes p (data + w / 2 * (j + 1)) (w / 2)
      complex_loop f p data w n (j + 2)
        (o.add
          (snprintf16 (['('] ++ f.g_creal w re im ++ [','] ++ f.g_cimag w re im ++ [')', '\t']))
          (word_reads (data + w / 2 * (j + 1)) (w / 2) ++ word_reads (data + w / 2 * j) (w / 2)))
    else o

/-- The `if (header_data->type == ...)` chain of `BLOB_to_str`: what it
appends to `out`, for the first `N` elements of the payload at offset `data`. -/
def render (f : Printf) (p : Mem) (header_data : Header_data) (data : Nat) (N : Int)
    (o : Out) : Out :=
  if header_data.type = 'O'.toNat then o
  else if header_data.type = 'i'.toNat then
    int_loop p data header_data.wordsize_in_bytes N.toNat 0 o
  else if header_data.type = 'f'.toNat then
    float_loop f p data header_data.wordsize_in_bytes N.toNat 0 o
  else if header_data.type = 'c'.toNat then
    complex_loop f p data header_data.wordsize_in_bytes N.toNat 0 o
  else if header_data.type = 'U'.toNat then
    o.add "data type U not yet supported".toList []
  else o.add "data type not supported".toList []

/-- `char* BLOB_to_str(unsigned char* ptr_inputBlob)`: the C string
returned, and the log of the reads of `ptr_inputBlob`. `header_data->size`
is read after `free(header_data)`; the embedding takes the block to be
unchanged by `free`. -/
def BLOB_to_str (f : Printf) (p : Mem) (u : Uninit) : Traced (List Char) :=
  let h := read_header p u.header_data u
  if h.ret < 0 then ⟨"some error".toList, h.reads⟩
  else
    let header_data := h.header_data
    let data := h.ret.toNat
    let N : Int := if 15 > header_data.size then header_data.size else 15
    let o := render f p header_data data N ⟨u.out, h.reads⟩
    if N < header_data.size then ⟨o.text ++ "...".toList, o.reads⟩
    else ⟨o.text, o.reads⟩

/-! ## `blopy.c` -/

/-- An `sqlite3_value`: a BLOB (the pointer `sqlite3_value_blob` returns),
or a value of another type. -/
inductive sqlite3_value where
  | blob (p : Mem)
  | integer (n : Int)
  | real (bits : Nat)
  | text (s : String)
  | null

/-- The result a function sets on its `sqlite3_context`. -/
inductive sqlite3_result where
  | text (s : String)
  | int (n : Int)
  | value (v : sqlite3_value)

/-- `static void is_numpy_blob(sqlite3_context*, int, sqlite3_value **argv)`. -/
def is_numpy_blob (argv0 : sqlite3_value) : sqlite3_result :=
  match argv0 with
  | .blob input =>
    if read_magic input = -1 then .text "false" else .text "true"
  | v => .value v

/-! ## Notions used in the statements -/

/-- The BLOB starts with the signature. -/
def has_signature (p : Mem) : Prop := ∀ i < MAGIC_LEN, rd p i = MAGIC_NUMPY.getD i 0

instance (p : Mem) : Decidable (has_signature p) := by
  unfold has_signature; infer_instance

/-- The combined version number `10 * major + minor` of the two version bytes. -/
def version_number (p : Mem) : Nat := 10 * rd p 6 + rd p 7

/-- The little-endian 16-bit header length field at offset 8. -/
def header_length_field (p : Mem) : Nat := rd p 8 + 256 * rd p 9

/-- A `Header_data` with every field zero. -/
def Header_data.zero : Header_data := ⟨false, [], 0, 0, [], 0, 0, false, 0⟩

/-- Uninitialised memory that holds zero bytes only. -/
def Uninit.zero : Uninit := ⟨fun _ => 0, fun _ => [], fun _ => [], Header_data.zero, []⟩

/-- The log of the reads of `read_magic` on a BLOB with the signature. -/
def magic_reads : List Nat := [7, 6, 5, 4, 3, 2, 1, 0]

/-- The log of the reads once the header length has been read. -/
def length_reads : List Nat := 8 :: 9 :: magic_reads

/-- A BLOB with signature and version bytes `(2, 0)`. -/
def blob_v2 : List Nat := MAGIC_NUMPY ++ [2, 0, 16, 0]

/-- A BLOB with signature, version bytes `(1, 0)` and header length 16. -/
def blob_v1 : List Nat := MAGIC_NUMPY ++ [1, 0, 16, 0]

/-- The signed two's-complement value of a little-endian word of
`bytes.length` bytes, as the specification words it. -/
def signed_le (bytes : List Nat) : Int :=
  if le_value bytes < 2 ^ (8 * bytes.length - 1) then (le_value bytes : Int)
  else (le_value bytes : Int) - 2 ^ (8 * bytes.length)

/-- The ellipsis marker. -/
def ELLIPSIS : List Char := ['.', '.', '.']

/-- Values rendered one after the other, each followed by a tab. -/
def tab_terminated (vals : List (List Char)) : List Char := vals.flatMap (fun v => v ++ ['\t'])

/-- Values joined by single tabs: no tab before the first or after the last. -/
def tab_joined (vals : List (List Char)) : List Char := List.intercalate ['\t'] vals

/-- The number of elements rendered for an element count `c`: `min(15, c)`,
none when that is negative. -/
def preview_count (c : Int) : Nat := (min 15 c).toNat

/-- The marker, when `n` elements were rendered of `c`. -/
def marker (n : Nat) (c : Int) : List Char := if (n : Int) < c then ELLIPSIS else []

/-- A `Printf` whose floating-point conversions give the empty text. -/
def Printf.blank : Printf := ⟨fun _ _ => [], fun _ _ _ => [], fun _ _ _ => []⟩

/-- The header as `BLOB_to_str` decodes it: `read_header` on the
`malloc`ed `Header_data`. -/
def decoded (p : Mem) (u : Uninit) : Outcome := read_header p u.header_data u

/-- A BLOB: signature, version 1.0, the little-endian length of the metadata
text, the metadata text, the payload. -/
def mk_blob (metadata : String) (payload : List Nat) : List Nat :=
  MAGIC_NUMPY ++ [1, 0] ++ [(bytesOf metadata).length % 256, (bytesOf metadata).length / 256]
    ++ bytesOf metadata ++ payload

/-- The bytes of a little-endian word of `w` bytes with the unsigned value `v`. -/
def le_word (w v : Nat) : List Nat := (List.range w).map (fun b => v / 256 ^ b % 256)

/-- Twenty 32-bit integers `0..19` under the metadata
`{'descr': '<i4', 'fortran_order': False, 'shape': (20,), }`. -/
def blob_i4_20 : List Nat :=
  mk_blob "\x7b\x27descr\x27: \x27<i4\x27, \x27fortran_order\x27: False, \x27shape\x27: (20,), \x7d"
    ((List.range 20).flatMap (le_word 4))

/-- One 64-bit integer, `2^32`, under the metadata
`{'descr': '<i8', 'fortran_order': False, 'shape': (1,), }`. -/
def blob_i8_1 : List Nat :=
  mk_blob "\x7b\x27descr\x27: \x27<i8\x27, \x27fortran_order\x27: False, \x27shape\x27: (1,), \x7d"
    (le_word 8 4294967296)

/-- Three 64-bit floats `1.0, 2.0, 3.0` under the metadata
`{'descr': '<f8', 'fortran_order': False, 'shape': (3,), }`. -/
def blob_f8_3 : List Nat :=
  mk_blob "\x7b\x27descr\x27: \x27<f8\x27, \x27fortran_order\x27: False, \x27shape\x27: (3,), \x7d"
    ([4607182418800017408, 4611686018427387904, 4613937818241073152].flatMap (le_word 8))

/-- The element count of a shape as the specification defines it: the
product of `max(d, 1)` over the axes, 1 for the empty shape. -/
def element_count (shape : List Int) : Int := (shape.map (fun d => max d 1)).prod

/-- Every index of the log is inside a BLOB of `L` bytes. -/
def reads_below (L : Nat) (reads : List Nat) : Prop := ∀ i ∈ reads, i < L

instance (L : Nat) (reads : List Nat) : Decidable (reads_below L reads) := by
  unfold reads_below; infer_instance

/-- The first 40 bytes of `blob_f8_3`: the metadata text is cut off. -/
def blob_truncated : List Nat := blob_f8_3.take 40

/-- `static void numpy_version(sqlite3_context*, int, sqlite3_value **argv)`:
the `short` that `read_magic` returns is stored in an `unsigned short
version`, which is promoted to `int` for the comparison with `-1` and for
`sqlite3_result_int`. -/
def numpy_version (argv0 : sqlite3_value) : sqlite3_result :=
  match argv0 with
  | .blob input =>
    let version : Nat := toUShort (read_magic input)
    if (version : Int) = -1 then .value argv0 else .int version
  | v => .value v

/-- Eight zero bytes: a BLOB without the signature. -/
def blob_zeros : List Nat := [0, 0, 0, 0, 0, 0, 0, 0]

/-- Three objects under the metadata
`{'descr': '|O', 'fortran_order': False, 'shape': (3,), }` (the payload,
a pickle, is left out). -/
def blob_O_3 : List Nat :=
  mk_blob "\x7b\x27descr\x27: \x27|O\x27, \x27fortran_order\x27: False, \x27shape\x27: (3,), \x7d" []

/-- Twenty texts of one character under the metadata
`{'descr': '<U1', 'fortran_order': False, 'shape': (20,), }`. -/
def blob_U1_20 : List Nat :=
  mk_blob "\x7b\x27descr\x27: \x27<U1\x27, \x27fortran_order\x27: False, \x27shape\x27: (20,), \x7d"
    ((List.range 20).flatMap (fun k => le_word 4 (97 + k)))

/-- The message of `BLOB_to_str` for the kind `'U'`. -/
def MESSAGE_U : List Char := "data type U not yet supported".toList

/-- A quote sign, `SIGN_SQ` or `SIGN_DQ`. -/
def is_quote (c : Nat) : Prop := c = SIGN_SQ ∨ c = SIGN_DQ

instance (c : Nat) : Decidable (is_quote c) := by
  unfold is_quote; infer_instance

/-- What `read_header` takes for the key `descr` at index `i` of the
metadata text: a `d` with a quote sign five characters later. -/
def descr_key_at (p : Mem) (i : Nat) : Prop :=
  rd p (start_hdr + i) = 'd'.toNat ∧ is_quote (rd p (start_hdr + i + 5))

instance (p : Mem) (i : Nat) : Decidable (descr_key_at p i) := by
  unfold descr_key_at; infer_instance

/-- What `read_header` takes for the key `shape` at index `i` of the
metadata text: an `s` with a quote sign five characters later. -/
def shape_key_at (p : Mem) (i : Nat) : Prop :=
  rd p (start_hdr + i) = 's'.toNat ∧ is_quote (rd p (start_hdr + i + 5))

instance (p : Mem) (i : Nat) : Decidable (shape_key_at p i) := by
  unfold shape_key_at; infer_instance

/-- The fields of the descriptor are in `o` what they are in `hd`. -/
def descr_untouched (hd o : Header_data) : Prop :=
  o.descr = hd.descr ∧ o.descr_len = hd.descr_len ∧ o.type = hd.type ∧
  o.littleEndian = hd.littleEndian ∧ o.wordsize_in_bytes = hd.wordsize_in_bytes

instance (hd o : Header_data) : Decidable (descr_untouched hd o) := by
  unfold descr_untouched; infer_instance

/-- The fields of the shape are in `o` what they are in `hd`. -/
def shape_untouched (hd o : Header_data) : Prop :=
  o.shape = hd.shape ∧ o.shape_len = hd.shape_len ∧ o.size = hd.size

instance (hd o : Header_data) : Decidable (shape_untouched hd o) := by
  unfold shape_untouched; infer_instance

/-- The `littleEndian` flag agrees with the first character of the
descriptor: true exactly for `<` and `|`. -/
def endian_consistent (o : Header_data) : Prop :=
  o.littleEndian = true ↔
    (o.descr.head? = some '<'.toNat ∨ o.descr.head? = some '|'.toNat)

/-- A text of decimal digits. -/
def all_digits (ds : List Nat) : Prop := ∀ c ∈ ds, isdigit c = true

instance (ds : List Nat) : Decidable (all_digits ds) := by
  unfold all_digits; infer_instance

/-- The descriptor `=i4` under the metadata
`{'descr': '=i4', 'fortran_order': False, 'shape': (20,), }`. -/
def blob_native_i4 : List Nat :=
  mk_blob "\x7b\x27descr\x27: \x27=i4\x27, \x27fortran_order\x27: False, \x27shape\x27: (20,), \x7d"
    ((List.range 20).flatMap (le_word 4))

/-- The metadata
`{'fortran_order': False, 'shape': (3,), }`, without the key `descr`, and
three 32-bit integers. -/
def blob_no_descr : List Nat :=
  mk_blob "\x7b\x27fortran_order\x27: False, \x27shape\x27: (3,), \x7d"
    ([1, 2, 3].flatMap (le_word 4))

/-- The metadata `{'descr': '<i4', 'fortran_order': False, }`, without the
key `shape`, and three 32-bit integers. -/
def blob_no_shape : List Nat :=
  mk_blob "\x7b\x27descr\x27: \x27<i4\x27, \x27fortran_order\x27: False, \x7d"
    ([1, 2, 3].flatMap (le_word 4))

/-- What the main loop of `read_header` carries along, the log of the
reads left out. -/
def State.core (s : State) : Header_data × (Nat → Nat) := (s.header_data, s.buffer)

/-- What an inner scan carries along, the log of the reads left out. -/
def Scan.core (s : Scan) : (Nat → Nat) × Nat := (s.buffer, s.counter)

/-- The main loop of `read_header` from index `i` on, with the fuel that
the remaining characters need. -/
def scan_from (p : Mem) (u : Uninit) (hl i : Nat) (s : State) : State :=
  header_loop p u hl (hl - i) i s

/-- The index `i` of the metadata text is passed by the main loop without
effect: the character is not `}`, and if it is `d`, `s` or `f` no quote sign
stands where the key would end. -/
def inert_at (p : Mem) (i : Nat) : Prop :=
  rd p (start_hdr + i) ≠ '}'.toNat ∧
  (rd p (start_hdr + i) = 'd'.toNat → ¬ is_quote (rd p (start_hdr + i + 5))) ∧
  (rd p (start_hdr + i) = 's'.toNat → ¬ is_quote (rd p (start_hdr + i + 5))) ∧
  (rd p (start_hdr + i) = 'f'.toNat → ¬ is_quote (rd p (start_hdr + i + 13)))

/-- The buffer after `buffer[c++] = x` for each `x` of `D` in turn. -/
def write_at (b : Nat → Nat) (c : Nat) : List Nat → Nat → Nat
  | [] => b
  | x :: xs => write_at (Function.update b c x) (c + 1) xs

/-- The characters `seg` stand in the metadata text from index `i` on. -/
def text_at (p : Mem) (i : Nat) (seg : List Nat) : Prop :=
  ∀ k < seg.length, rd p (start_hdr + i + k) = seg.getD k 0

/-- A character that the main loop of `read_header` passes over whatever
follows it: none of `d`, `s`, `f`, `}`. -/
def quiet (c : Nat) : Prop :=
  c ≠ 'd'.toNat ∧ c ≠ 's'.toNat ∧ c ≠ 'f'.toNat ∧ c ≠ '}'.toNat

instance (c : Nat) : Decidable (quiet c) := by
  unfold quiet; infer_instance

def KEY_DESCR : List Nat := bytesOf "\x27descr\x27: \x27"
def END_QUOTED : List Nat := bytesOf "\x27, "
def KEY_FORTRAN : List Nat := bytesOf "\x27fortran_order\x27: "
def SEPARATOR : List Nat := bytesOf ", "
def KEY_SHAPE : List Nat := bytesOf "\x27shape\x27: ("
def END_TUPLE : List Nat := bytesOf "), "
def BRACE : List Nat := bytesOf "\x7d"

/-- The text of a Python truth value. -/
def bool_text (F : Bool) : List Nat := if F then bytesOf "True" else bytesOf "False"

/-- The metadata text
`g0 'descr': 'D', g1 'fortran_order': F, g2 'shape': (S), g3 }`:
the three pairs in the order in which numpy writes them, with the texts
`g0` .. `g3` before, between and after them; numpy's own text has `{` for
`g0` and nothing for `g1`, `g2`, `g3`. -/
def dict_text (g0 D g1 : List Nat) (F : Bool) (g2 S g3 : List Nat) : List Nat :=
  g0 ++ (KEY_DESCR ++ (D ++ (END_QUOTED ++ (g1 ++ (KEY_FORTRAN ++ (bool_text F ++
    (SEPARATOR ++ (g2 ++ (KEY_SHAPE ++ (S ++ (END_TUPLE ++ (g3 ++ BRACE))))))))))))

/-- The index of the `s` of the key `shape` in `dict_text`. -/
def shape_index (g0 D g1 : List Nat) (F : Bool) (g2 : List Nat) : Nat :=
  g0.length + 10 + D.length + 3 + g1.length + 17 + (bool_text F).length + 2 + g2.length + 1

/-- The byte of `buffer` behind the tuple text `S`, when the descriptor `D`
was moved to `buffer` before: a character of `D`, or uninitialised. -/
def byte_behind (u : Uninit) (D S : List Nat) : Nat :=
  if S.length < D.length then D.getD S.length 0 else u.buffer S.length

/-- The header that `read_header` leaves for `dict_text`: the descriptor
`D`, found at index `i_d`, and what is derived from it; the truth value `F`;
the shape read from the tuple text `S`, found at index `i_s`, with the byte
behind it. -/
def dict_header (u : Uninit) (i_d i_s : Nat) (D : List Nat) (F : Bool) (S : List Nat) :
    Header_data :=
  let desc := D ++ 0 :: u.desc_tail i_d
  let shape := (strtok_tokens ','.toNat
    (cstr ((S ++ [byte_behind u D S]) ++ u.tuple_tail i_s)) []).map atoi
  { fortran_order := F
    shape := shape
    shape_len := shape.length
    size := shape_size shape
    descr := D
    descr_len := D.length
    type := desc.getD 1 0
    littleEndian := desc.getD 0 0 = '<'.toNat ∨ desc.getD 0 0 = '|'.toNat
    wordsize_in_bytes := toUInt32 (atoi (desc.drop 2)) }

/-- A BLOB of version 1.0 with the metadata text and the payload given as
bytes. -/
def blob_of (metadata payload : List Nat) : List Nat :=
  MAGIC_NUMPY ++ [1, 0] ++ [metadata.length % 256, metadata.length / 256] ++ metadata ++ payload

instance (p : Mem) (i : Nat) : Decidable (inert_at p i) := by
  unfold inert_at; infer_instance

/-- The text of an additional pair, `'K': V, `. -/
def extra_pair (K V : List Nat) : List Nat :=
  [39] ++ (K ++ ([39, 58, 32] ++ (V ++ [44, 32])))

/-- The text `dict_text` with the text `X` inserted at a pair boundary:
before the first pair (`pos = 0`), before the second or the third
(`pos = 1, 2`), or after the last pair, before the text `g3` and the
closing brace. -/
def dict_text_with (X : List Nat) (pos : Nat) (g0 D g1 : List Nat) (F : Bool)
    (g2 S g3 : List Nat) : List Nat :=
  match pos with
  | 0 => dict_text (g0 ++ X) D g1 F g2 S g3
  | 1 => dict_text g0 D (g1 ++ X) F g2 S g3
  | 2 => dict_text g0 D g1 F (g2 ++ X) S g3
  | _ => dict_text g0 D g1 F g2 S (X ++ g3)

/-- The gap before the descriptor in `dict_text_with`. -/
def gap0_with (X : List Nat) (pos : Nat) (g0 : List Nat) : List Nat :=
  if pos = 0 then g0 ++ X else g0

/-- Twenty 32-bit integers under the metadata of `blob_i4_20` with the
additional pair `'dtype': 'x'` behind the three pairs:
`{'descr': '<i4', 'fortran_order': False, 'shape': (20,), 'dtype': 'x', }`. -/
def blob_i4_20_dtype : List Nat :=
  mk_blob "\x7b\x27descr\x27: \x27<i4\x27, \x27fortran_order\x27: False, \x27shape\x27: (20,), \x27dtype\x27: \x27x\x27, \x7d"
    ((List.range 20).flatMap (le_word 4))

/-- The three pairs of `blob_f8_3` in the order `shape`, `descr`,
`fortran_order`:
`{'shape': (3,), 'descr': '<f8', 'fortran_order': False, }`. -/
def blob_f8_3_shape_first : List Nat :=
  mk_blob "\x7b\x27shape\x27: (3,), \x27descr\x27: \x27<f8\x27, \x27fortran_order\x27: False, \x7d"
    ([4607182418800017408, 4611686018427387904, 4613937818241073152].flatMap (le_word 8))

/-- A text split at its commas: the texts between the commas, empty ones
included. -/
def split_commas : List Nat → List (List Nat)
  | [] => [[]]
  | c :: cs =>
    if c = ','.toNat then [] :: split_commas cs
    else
      match split_commas cs with
      | [] => [[c]]
      | t :: ts => (c :: t) :: ts

/-- The non-empty texts between the commas of a text. Blanks are not
trimmed: a text of blanks is not empty. -/
def comma_tokens (S : List Nat) : List (List Nat) :=
  (split_commas S).filter (fun t => !t.isEmpty)

/-- A character of a tuple text: a digit, a comma or a blank. -/
def tuple_char (c : Nat) : Prop := isdigit c = true ∨ c = ','.toNat ∨ c = ' '.toNat

instance (c : Nat) : Decidable (tuple_char c) := by
  unfold tuple_char; infer_instance

/-- Three 32-bit integers under the metadata
`{'descr': '<i4', 'fortran_order': False, 'shape': (3, ), }`, the tuple
written with a blank behind the comma. -/
def blob_i4_3_blank : List Nat :=
  mk_blob "\x7b\x27descr\x27: \x27<i4\x27, \x27fortran_order\x27: False, \x27shape\x27: (3, ), \x7d"
    ((List.range 3).flatMap (le_word 4))

/-- The BLOB `blob_i4_20` with the version bytes `(0, 10)` in place of
`(1, 0)`: signature, major version 0, minor version 10, the length of the
metadata text, the metadata
`{'descr': '<i4', 'fortran_order': False, 'shape': (20,), }`, twenty 32-bit
integers. -/
def blob_version_0_10 : List Nat :=
  MAGIC_NUMPY ++ [0, 10] ++ (blob_i4_20.drop 8)

/-- The capacity of `out`, `malloc(sizeof(char)*256)`. -/
def OUT_SIZE : Nat := 256

/-- Three 32-bit integers `1, 2, 3` under the metadata
`{'descr': '<i4', 'fortran_order': False, 'shape': (3,), }`. -/
def blob_i4_3 : List Nat :=
  mk_blob "\x7b\x27descr\x27: \x27<i4\x27, \x27fortran_order\x27: False, \x27shape\x27: (3,), \x7d"
    ([1, 2, 3].flatMap (le_word 4))

/-- The metadata `{'dummy': 1, 'fortran_order': False, 'shape': (3,), }`,
without the key `descr` and with a key that starts with `d` and has five
letters, and three 32-bit integers. -/
def blob_dummy_key : List Nat :=
  mk_blob "\x7b\x27dummy\x27: 1, \x27fortran_order\x27: False, \x27shape\x27: (3,), \x7d"
    ([1, 2, 3].flatMap (le_word 4))

/-! # Theorems -/

/-! ## Facts about `read_magic` -/

theorem rd_lt (p : Mem) (i : Nat) : rd p i < 256 := by
  unfold rd; omega

theorem magic_loop_true (p : Mem) (n i : Nat) (r : List Nat) :
    (magic_loop p n i r).1 = true ↔ ∀ k < n, rd p (i + k) = MAGIC_NUMPY.getD (i + k) 0 := by
  induction n generalizing i r with
  | zero => simp [magic_loop]
  | succ n ih =>
    unfold magic_loop
    by_cases h : rd p i = MAGIC_NUMPY.getD i 0
    · simp only [ne_eq, h, not_true_eq_false, if_false, ih]
      constructor
      · intro hk k hlt
        rcases Nat.eq_zero_or_pos k with rfl | hpos
        · simpa using h
        · have := hk (k - 1) (by omega)
          have e : i + 1 + (k - 1) = i + k := by omega
          rwa [e] at this
      · intro hk k hlt
        have := hk (k + 1) (by omega)
        have e : i + (k + 1) = i + 1 + k := by omega
        rwa [e] at this
    · simp only [ne_eq, h, not_false_eq_true, if_true]
      constructor
      · intro hf; simp at hf
      · intro hk; exact absurd (by simpa using hk 0 (by omega)) h

theorem magic_loop_true_reads (p : Mem) (n i : Nat) (r : List Nat)
    (h : (magic_loop p n i r).1 = true) :
    (magic_loop p n i r).2 = ((List.range n).map (fun k => i + k)).reverse ++ r := by
  induction n generalizing i r with
  | zero => simp [magic_loop]
  | succ n ih =>
    unfold magic_loop at h ⊢
    by_cases hc : rd p i = MAGIC_NUMPY.getD i 0
    · simp only [ne_eq, hc, not_true_eq_false, if_false] at h ⊢
      rw [ih _ _ h, List.range_succ_eq_map]
      simp [Function.comp_def, Nat.add_assoc, Nat.add_comm 1]
    · simp only [ne_eq, hc, not_false_eq_true, if_true] at h
      exact absurd h (by simp)

theorem has_signature_iff (p : Mem) :
    has_signature p ↔ (magic_loop p MAGIC_LEN 0 []).1 = true := by
  rw [magic_loop_true]; simp [has_signature]

theorem read_magic_traced_of_signature (p : Mem) (h : has_signature p) :
    read_magic_traced p = ⟨version_number p, [7, 6, 5, 4, 3, 2, 1, 0]⟩ := by
  have h1 := (has_signature_iff p).1 h
  have h2 := magic_loop_true_reads p MAGIC_LEN 0 [] h1
  have a := rd_lt p 6
  have b := rd_lt p 7
  unfold read_magic_traced
  simp only [h1, if_true, h2]
  simp only [version_loop, MAGIC_LEN, VERSION_LEN, toUShort, toShort, version_number]
  simp [List.range_succ]
  omega

theorem read_magic_traced_of_not_signature (p : Mem) (h : ¬ has_signature p) :
    (read_magic_traced p).val = -1 := by
  have h1 : ¬ (magic_loop p MAGIC_LEN 0 []).1 = true := fun c => h ((has_signature_iff p).2 c)
  unfold read_magic_traced
  simp [h1]


theorem read_magic_eq_neg_one_iff (p : Mem) : read_magic p = -1 ↔ ¬ has_signature p := by
  unfold read_magic
  by_cases h : has_signature p
  · rw [read_magic_traced_of_signature p h]
    simp only [h, not_true_eq_false, iff_false]
    intro hc
    have : (0:Int) ≤ (version_number p : Int) := Int.ofNat_nonneg _
    have hc2 : (version_number p : Int) = -1 := hc
    omega
  · simp [h, read_magic_traced_of_not_signature p h]

theorem not_has_signature_iff (p : Mem) :
    ¬ has_signature p ↔ ∃ i < MAGIC_LEN, rd p i ≠ MAGIC_NUMPY.getD i 0 := by
  unfold has_signature
  push_neg
  exact Iff.rfl

/-- C4: `read_magic` returns -1 exactly when one of the first 6 bytes differs
from the signature; `is_numpy_blob` answers "false" exactly for those BLOBs
and "true" exactly for the BLOBs that start with the signature, whatever the
two version bytes are. Stated for every memory behind the pointer, of which
a BLOB of at least 8 bytes is an instance. -/
theorem C4_read_magic_signature (p : Mem) :
    (read_magic p = -1 ↔ ∃ i < MAGIC_LEN, rd p i ≠ MAGIC_NUMPY.getD i 0) ∧
    (is_numpy_blob (.blob p) = .text "false" ↔
      ∃ i < MAGIC_LEN, rd p i ≠ MAGIC_NUMPY.getD i 0) ∧
    (is_numpy_blob (.blob p) = .text "true" ↔
      ∀ i < MAGIC_LEN, rd p i = MAGIC_NUMPY.getD i 0) := by
  have h1 := read_magic_eq_neg_one_iff p
  have h2 := not_has_signature_iff p
  refine ⟨h1.trans h2, ?_, ?_⟩
  · rw [← h2, ← h1]
    unfold is_numpy_blob
    by_cases h : read_magic p = -1 <;> simp [h]
  · show _ ↔ has_signature p
    rw [← not_not (a := has_signature p), ← h1]
    unfold is_numpy_blob
    by_cases h : read_magic p = -1 <;> simp [h]

theorem read_header_length_traced_val (p : Mem) (r : List Nat) :
    (read_header_length_traced p r).val = header_length_field p := by
  have a := rd_lt p 8
  have b := rd_lt p 9
  simp only [read_header_length_traced, MAGIC_LEN, VERSION_LEN, toInt32, toUInt32,
    header_length_field, Nat.reduceAdd]
  omega

theorem read_header_of_signature (p : Mem) (hd : Header_data) (u : Uninit)
    (h : has_signature p) :
    read_header p hd u =
      if version_number p < 10 ∨ 20 ≤ version_number p then ⟨-2, hd, magic_reads⟩
      else if header_length_field p = 0 then ⟨-3, hd, length_reads⟩
      else
        ⟨10 + header_length_field p,
          (header_loop p u (header_length_field p) (header_length_field p) 0
            ⟨hd, u.buffer, length_reads⟩).header_data,
          (header_loop p u (header_length_field p) (header_length_field p) 0
            ⟨hd, u.buffer, length_reads⟩).reads⟩ := by
  have hl := read_header_length_traced_val p [7, 6, 5, 4, 3, 2, 1, 0]
  have hr : (read_header_length_traced p [7, 6, 5, 4, 3, 2, 1, 0]).reads = length_reads := rfl
  unfold read_header
  simp only [read_magic_traced_of_signature p h]
  have e1 : ¬ ((version_number p : Int) = -1) := by omega
  simp only [e1, if_false]
  by_cases hv : version_number p < 10 ∨ 20 ≤ version_number p
  · have hv2 : (version_number p : Int) < 10 ∨ (version_number p : Int) ≥ 20 := by omega
    simp only [hv, hv2, if_true]; rfl
  · have hv2 : ¬ ((version_number p : Int) < 10 ∨ (version_number p : Int) ≥ 20) := by omega
    simp only [hv, hv2, if_false]
    rw [hr, hl]
    by_cases h0 : header_length_field p = 0
    · simp [h0]
    · have h1 : ¬ ((header_length_field p : Int) ≤ 0) := by omega
      have e : (header_length_field p : Int) + ((6 + 2 + 2 : Nat) : Int)
          = 10 + (header_length_field p : Int) := by push_cast; omega
      simp only [h0, h1, if_false, Int.toNat_ofNat, start_hdr, MAGIC_LEN, VERSION_LEN, e]

/-- C5: for a BLOB that starts with the signature, `read_header` returns -2
exactly when `10 * major + minor` is outside `10 ≤ version < 20`; and when
it does, the caller's header is untouched and only the bytes 0..7 have been
read (the header length at offsets 8, 9 has not). -/
theorem C5_unsupported_version (p : Mem) (hd : Header_data) (u : Uninit)
    (h : has_signature p) :
    ((read_header p hd u).ret = -2 ↔ (version_number p < 10 ∨ 20 ≤ version_number p)) ∧
    ((read_header p hd u).ret = -2 →
      (read_header p hd u).header_data = hd ∧
      (read_header p hd u).reads = [7, 6, 5, 4, 3, 2, 1, 0]) := by
  rw [read_header_of_signature p hd u h]
  by_cases hv : version_number p < 10 ∨ 20 ≤ version_number p
  · simp [hv, magic_reads]
  · simp only [hv, if_false, iff_false]
    by_cases h0 : header_length_field p = 0
    · simp [h0]
    · simp only [h0, if_false]
      have : ¬ ((10 : Int) + (header_length_field p : Int) = -2) := by omega
      exact ⟨this, fun hc => absurd hc this⟩

/-- C5 at the BLOB with version 2.0: `read_header` returns -2. -/
theorem C5_unsupported_version_witness :
    (read_header (ofBytes blob_v2) Header_data.zero Uninit.zero).ret = -2 :=
  (C5_unsupported_version (ofBytes blob_v2) Header_data.zero Uninit.zero (by decide)).1.2
    (by decide)

/-- C6: for a BLOB with the signature and a supported version, with `h` the
little-endian 16-bit field at offsets 8 and 9, `read_header` returns -3 when
`h = 0` and `10 + h` otherwise, whatever the metadata text holds. -/
theorem C6_payload_offset (p : Mem) (hd : Header_data) (u : Uninit)
    (h : has_signature p) (hv : 10 ≤ version_number p ∧ version_number p < 20) :
    (header_length_field p = 0 → (read_header p hd u).ret = -3) ∧
    (header_length_field p ≠ 0 → (read_header p hd u).ret = 10 + header_length_field p) := by
  rw [read_header_of_signature p hd u h]
  have e2 : ¬ (version_number p < 10 ∨ 20 ≤ version_number p) := by omega
  simp only [e2, if_false]
  constructor
  · intro h0
    simp [h0]
  · intro h0
    simp [h0]

/-- C6 at a BLOB with version 1.0 and header length field 16: the value
returned is 26. -/
theorem C6_payload_offset_witness :
    (read_header (ofBytes blob_v1) Header_data.zero Uninit.zero).ret
      = 10 + header_length_field (ofBytes blob_v1) :=
  (C6_payload_offset (ofBytes blob_v1) Header_data.zero Uninit.zero (by decide)
    (by decide)).2 (by decide)

/-! ## Facts about the rendering of integers -/

theorem toInt32_range (x : Int) : -2147483648 ≤ toInt32 x ∧ toInt32 x < 2147483648 := by
  unfold toInt32; split <;> omega

theorem toShort_range (x : Int) : -32768 ≤ toShort x ∧ toShort x < 32768 := by
  unfold toShort; split <;> omega

theorem toDigits_length_le (n : Nat) (h : n < 10 ^ 10) : (Nat.toDigits 10 n).length ≤ 10 :=
  Nat.toDigitsCore_length 10 (by decide) (n + 1) n 10 h (by decide)

theorem decimal_length_le (x : Int) (h : -2147483648 ≤ x ∧ x < 2147483648) :
    (decimal x).length ≤ 11 := by
  unfold decimal
  split
  · have := toDigits_length_le x.natAbs (by omega)
    simp only [List.length_cons]; omega
  · have := toDigits_length_le x.toNat (by omega)
    omega

theorem snprintf16_decimal (x : Int) (h : -2147483648 ≤ x ∧ x < 2147483648) :
    snprintf16 (decimal x ++ ['\t']) = decimal x ++ ['\t'] := by
  unfold snprintf16
  apply List.take_of_length_le
  have := decimal_length_le x h
  simp only [List.length_append, List.length_singleton]; omega

theorem out_int_range (p : Mem) (data w j : Nat) (v : Int) (h : out_int p data w j = some v) :
    -2147483648 ≤ v ∧ v < 2147483648 := by
  unfold out_int at h
  split at h
  · exact Option.some.inj h ▸ toInt32_range _
  · split at h
    · exact Option.some.inj h ▸ toInt32_range _
    · split at h
      · have := toShort_range (le_value (word_bytes p (data + 2 * j) 2))
        rw [Option.some.inj h] at this
        omega
      · exact absurd h (by simp)

/-- The text appended by the loop of the `'i'` kind when every iteration
finds a supported word size: one chunk per iteration. -/
theorem int_loop_text (p : Mem) (data w : Nat) (val : Nat → Int)
    (hv : ∀ j, out_int p data w j = some (val j)) (n j : Nat) (o : Out) :
    (int_loop p data w n j o).text =
      o.text ++ tab_terminated ((List.range n).map (fun k => decimal (val (j + k)))) := by
  induction n generalizing j o with
  | zero => simp [int_loop, tab_terminated]
  | succ n ih =>
    unfold int_loop
    rw [hv j]
    simp only
    rw [ih, snprintf16_decimal _ (out_int_range p data w j _ (hv j))]
    have e : (fun k => decimal (val (j + 1 + k))) = ((fun k => decimal (val (j + k))) ∘ Nat.succ) := by
      funext k
      simp [Nat.add_assoc, Nat.add_comm 1]
    simp only [Out.add, tab_terminated, List.range_succ_eq_map, List.map_cons, List.map_map,
      List.flatMap_cons, List.append_assoc, Nat.add_zero, e]

theorem le_value_lt (bs : List Nat) (h : ∀ b ∈ bs, b < 256) : le_value bs < 256 ^ bs.length := by
  induction bs with
  | nil => simp [le_value]
  | cons b bs ih =>
    have hb := h b (List.mem_cons_self _ _)
    have := ih (fun c hc => h c (List.mem_cons_of_mem _ hc))
    simp only [le_value, List.length_cons, pow_succ]
    omega

theorem word_bytes_length (p : Mem) (off w : Nat) : (word_bytes p off w).length = w := by
  simp [word_bytes]

theorem word_bytes_lt (p : Mem) (off w : Nat) : ∀ b ∈ word_bytes p off w, b < 256 := by
  intro b hb
  simp only [word_bytes, List.mem_map] at hb
  obtain ⟨k, _, rfl⟩ := hb
  exact rd_lt p _

theorem out_int_four (p : Mem) (data j : Nat) :
    out_int p data 4 j = some (signed_le (word_bytes p (data + j * 4) 4)) := by
  have h := le_value_lt _ (word_bytes_lt p (data + 4 * j) 4)
  rw [word_bytes_length] at h
  have e : data + j * 4 = data + 4 * j := by omega
  simp only [out_int, signed_le, toInt32, word_bytes_length, e]
  norm_num at h ⊢
  split <;> split <;> omega

theorem out_int_two (p : Mem) (data j : Nat) :
    out_int p data 2 j = some (signed_le (word_bytes p (data + j * 2) 2)) := by
  have h := le_value_lt _ (word_bytes_lt p (data + 2 * j) 2)
  rw [word_bytes_length] at h
  have e : data + j * 2 = data + 2 * j := by omega
  simp only [out_int, signed_le, toShort, word_bytes_length, e]
  norm_num at h ⊢
  split <;> split <;> omega

/-- For the word size 8 the value rendered is the 64-bit integer converted
to `int`: its low 32 bits. -/
theorem out_int_eight (p : Mem) (data j : Nat) :
    out_int p data 8 j = some (toInt32 (signed_le (word_bytes p (data + j * 8) 8))) := by
  have h := le_value_lt _ (word_bytes_lt p (data + 8 * j) 8)
  rw [word_bytes_length] at h
  have e : data + j * 8 = data + 8 * j := by omega
  have k : toInt64 (le_value (word_bytes p (data + 8 * j) 8))
      = signed_le (word_bytes p (data + 8 * j) 8) := by
    simp only [signed_le, toInt64, word_bytes_length]
    norm_num at h ⊢
    split <;> split <;> omega
  simp only [out_int, if_true, e, k]

/-- The text returned by `BLOB_to_str` for an accepted BLOB of the `'i'`
kind with a supported word size. -/
theorem BLOB_to_str_int (f : Printf) (p : Mem) (u : Uninit) (val : Nat → Int)
    (hacc : 0 ≤ (decoded p u).ret)
    (hkind : (decoded p u).header_data.type = 'i'.toNat)
    (hv : ∀ j, out_int p (decoded p u).ret.toNat (decoded p u).header_data.wordsize_in_bytes j
      = some (val j)) :
    (BLOB_to_str f p u).val =
      u.out ++ tab_terminated
        ((List.range (preview_count (decoded p u).header_data.size)).map
          (fun k => decimal (val k)))
      ++ marker (preview_count (decoded p u).header_data.size) (decoded p u).header_data.size := by
  unfold decoded at hacc hkind hv
  have hacc2 : ¬ (read_header p u.header_data u).ret < 0 := by omega
  have hO : ¬ ('i'.toNat = 'O'.toNat) := by decide
  unfold BLOB_to_str
  simp only [hacc2, if_false, render, hkind, hO, if_true, decoded]
  rw [int_loop_text p _ _ val hv]
  simp only [Nat.zero_add, marker, preview_count]
  have key : ∀ c : Int, ((if 15 > c then c else 15) < c ↔ ((min 15 c).toNat : Int) < c) := by
    intro c; split <;> omega
  have key2 : ∀ c : Int, (if 15 > c then c else 15).toNat = (min 15 c).toNat := by
    intro c; split <;> omega
  rw [key2]
  by_cases hc : (if 15 > (read_header p u.header_data u).header_data.size then
      (read_header p u.header_data u).header_data.size else 15)
      < (read_header p u.header_data u).header_data.size
  · have := (key _).1 hc
    simp only [hc, this, if_true]
    rfl
  · have h2 : ¬ ((min 15 (read_header p u.header_data u).header_data.size).toNat : Int)
        < (read_header p u.header_data u).header_data.size := fun h => hc ((key _).2 h)
    simp only [hc, h2, if_false, List.append_nil]

/-- C8, as stated, fails on twenty 32-bit integers `0..19` under shape
`(20,)`: the BLOB is accepted, of kind `'i'` and word size 4, and the text
returned is not the 15 decimal strings joined by single tabs and followed
by the ellipsis marker (the code also writes a tab after the last value). -/
theorem C8_tab_joined_counterexample :
    0 ≤ (decoded (ofBytes blob_i4_20) Uninit.zero).ret ∧
    (decoded (ofBytes blob_i4_20) Uninit.zero).header_data.type = 'i'.toNat ∧
    (decoded (ofBytes blob_i4_20) Uninit.zero).header_data.wordsize_in_bytes = 4 ∧
    (decoded (ofBytes blob_i4_20) Uninit.zero).header_data.size = 20 ∧
    (BLOB_to_str Printf.blank (ofBytes blob_i4_20) Uninit.zero).val ≠
      tab_joined ((List.range 15).map (fun k =>
        decimal (signed_le (word_bytes (ofBytes blob_i4_20)
          ((decoded (ofBytes blob_i4_20) Uninit.zero).ret.toNat + k * 4) 4))))
      ++ ELLIPSIS := by
  decide

/-- C8, amended: for an accepted BLOB of kind `'i'` and word size 4 with
element count `c` (the decoded `size`), and an output buffer that starts
empty, the text returned is the decimal strings of the first
`n = min(15, c)` elements, each followed by one tab, and then the ellipsis
marker exactly when `n < c`. -/
theorem C8_tab_terminated (f : Printf) (p : Mem) (u : Uninit)
    (hacc : 0 ≤ (decoded p u).ret)
    (hkind : (decoded p u).header_data.type = 'i'.toNat)
    (hw : (decoded p u).header_data.wordsize_in_bytes = 4)
    (hout : u.out = []) :
    (BLOB_to_str f p u).val =
      tab_terminated
        ((List.range (preview_count (decoded p u).header_data.size)).map (fun k =>
          decimal (signed_le (word_bytes p ((decoded p u).ret.toNat + k * 4) 4))))
      ++ marker (preview_count (decoded p u).header_data.size) (decoded p u).header_data.size := by
  rw [BLOB_to_str_int f p u _ hacc hkind (fun j => by rw [hw]; exact out_int_four p _ j), hout]
  rfl

/-- C8 (amended) at the twenty integers `0..19`: the text is
`0\t1\t...\t14\t...`. -/
theorem C8_tab_terminated_witness :
    (BLOB_to_str Printf.blank (ofBytes blob_i4_20) Uninit.zero).val =
      tab_terminated
        ((List.range (preview_count (decoded (ofBytes blob_i4_20) Uninit.zero).header_data.size)).map
          (fun k => decimal (signed_le (word_bytes (ofBytes blob_i4_20)
            ((decoded (ofBytes blob_i4_20) Uninit.zero).ret.toNat + k * 4) 4))))
      ++ marker (preview_count (decoded (ofBytes blob_i4_20) Uninit.zero).header_data.size)
          (decoded (ofBytes blob_i4_20) Uninit.zero).header_data.size :=
  C8_tab_terminated Printf.blank (ofBytes blob_i4_20) Uninit.zero (by decide) (by decide)
    (by decide) rfl

/-- The values of the `'i'` kind: for an accepted BLOB of kind `'i'` with
word size `w` of 2 or 4, `BLOB_to_str` appends to `out` exactly
`min(15, size)` rendered values, `size` being the decoded field (and the
marker when there are fewer than `size`), the `k`-th being the decimal
representation of the signed two's-complement little-endian `w`-byte
integer at byte offset `payload_offset + k * w`. -/
theorem BLOB_to_str_int_values (f : Printf) (p : Mem) (u : Uninit) (w : Nat)
    (hacc : 0 ≤ (decoded p u).ret)
    (hkind : (decoded p u).header_data.type = 'i'.toNat)
    (hw : (decoded p u).header_data.wordsize_in_bytes = w)
    (hw24 : w = 2 ∨ w = 4) :
    (BLOB_to_str f p u).val =
      u.out ++ tab_terminated
        ((List.range (preview_count (decoded p u).header_data.size)).map (fun k =>
          decimal (signed_le (word_bytes p ((decoded p u).ret.toNat + k * w) w))))
      ++ marker (preview_count (decoded p u).header_data.size) (decoded p u).header_data.size := by
  rcases hw24 with rfl | rfl
  · exact BLOB_to_str_int f p u _ hacc hkind (fun j => by rw [hw]; exact out_int_two p _ j)
  · exact BLOB_to_str_int f p u _ hacc hkind (fun j => by rw [hw]; exact out_int_four p _ j)

/-- The values of the `'i'` kind at the twenty 32-bit integers `0..19`. -/
theorem BLOB_to_str_int_values_i4_20 :
    (BLOB_to_str Printf.blank (ofBytes blob_i4_20) Uninit.zero).val =
      Uninit.zero.out ++ tab_terminated
        ((List.range (preview_count (decoded (ofBytes blob_i4_20) Uninit.zero).header_data.size)).map
          (fun k => decimal (signed_le (word_bytes (ofBytes blob_i4_20)
            ((decoded (ofBytes blob_i4_20) Uninit.zero).ret.toNat + k * 4) 4))))
      ++ marker (preview_count (decoded (ofBytes blob_i4_20) Uninit.zero).header_data.size)
          (decoded (ofBytes blob_i4_20) Uninit.zero).header_data.size :=
  BLOB_to_str_int_values Printf.blank (ofBytes blob_i4_20) Uninit.zero 4 (by decide) (by decide)
    (by decide) (by decide)

set_option maxRecDepth 100000 in
/-- C9, the code at the failing input: for the three 32-bit integers
`1, 2, 3` under shape `(3,)` (kind `'i'`, word size 4, element count 3) and
uninitialised memory that is all zero, the BLOB is accepted with the decoded
shape `[3, 4]` and size 12, and `BLOB_to_str` renders twelve values, not
three: `1`, `2`, `3` and nine values loaded from behind the payload. -/
theorem C9_values_of_i4_3 (f : Printf) :
    0 ≤ (decoded (ofBytes blob_i4_3) Uninit.zero).ret ∧
    (decoded (ofBytes blob_i4_3) Uninit.zero).header_data.type = 'i'.toNat ∧
    (decoded (ofBytes blob_i4_3) Uninit.zero).header_data.wordsize_in_bytes = 4 ∧
    element_count [3] = 3 ∧
    (decoded (ofBytes blob_i4_3) Uninit.zero).header_data.shape = [3, 4] ∧
    (decoded (ofBytes blob_i4_3) Uninit.zero).header_data.size = 12 ∧
    (BLOB_to_str f (ofBytes blob_i4_3) Uninit.zero).val
      = "1\t2\t3\t0\t0\t0\t0\t0\t0\t0\t0\t0\t".toList :=
  ⟨by decide, by decide, by decide, by decide, by decide, by decide,
    (BLOB_to_str_int_values f (ofBytes blob_i4_3) Uninit.zero 4 (by decide) (by decide)
      (by decide) (by decide)).trans (by decide)⟩

/-- C10, the code at the failing input: the BLOB is accepted, of kind `'i'`
and word size 8, the 64-bit integer stored at the payload offset is `2^32`,
and the text rendered starts with `0` and a tab. -/
theorem C10_int64_truncated :
    0 ≤ (decoded (ofBytes blob_i8_1) Uninit.zero).ret ∧
    (decoded (ofBytes blob_i8_1) Uninit.zero).header_data.type = 'i'.toNat ∧
    (decoded (ofBytes blob_i8_1) Uninit.zero).header_data.wordsize_in_bytes = 8 ∧
    signed_le (word_bytes (ofBytes blob_i8_1)
      (decoded (ofBytes blob_i8_1) Uninit.zero).ret.toNat 8) = 4294967296 ∧
    (BLOB_to_str Printf.blank (ofBytes blob_i8_1) Uninit.zero).val.take 2 = ['0', '\t'] := by
  decide

/-! ## The stale byte after the tuple text -/

theorem strtok_tokens_ne_nil (delim : Nat) (l cur : List Nat) (h : cur ≠ []) :
    strtok_tokens delim l cur ≠ [] := by
  induction l generalizing cur with
  | nil =>
    cases cur with
    | nil => exact absurd rfl h
    | cons a t => simp [strtok_tokens]
  | cons c cs ih =>
    unfold strtok_tokens
    split
    · cases cur with
      | nil => exact absurd rfl h
      | cons a t => simp
    · exact ih _ (by simp)

theorem strtok_tokens_stale (t : List Nat) :
    (strtok_tokens 44 (cstr (51 :: 44 :: 56 :: t)) []).map atoi
      = 3 :: (strtok_tokens 44 (cstr t) [56]).map atoi := by
  simp only [cstr, List.takeWhile_cons]
  simp only [strtok_tokens]
  simp
  decide

set_option maxRecDepth 100000 in
theorem read_header_blob_f8_3_descr (hd : Header_data) (u : Uninit) :
    (read_header (ofBytes blob_f8_3) hd u).header_data.descr = [60, 102, 56] := by
  rfl

set_option maxRecDepth 100000 in
theorem read_header_blob_f8_3_shape (hd : Header_data) (u : Uninit) :
    (read_header (ofBytes blob_f8_3) hd u).header_data.shape =
      (strtok_tokens 44 (cstr (51 :: 44 :: 56 :: u.tuple_tail 42)) []).map atoi := by
  rfl

set_option maxRecDepth 100000 in
theorem read_header_blob_f8_3_shape_len (hd : Header_data) (u : Uninit) :
    (read_header (ofBytes blob_f8_3) hd u).header_data.shape_len =
      ((strtok_tokens 44 (cstr (51 :: 44 :: 56 :: u.tuple_tail 42)) []).map atoi).length := by
  rfl

/-- C1, the code at the failing input: for the metadata
`{'descr': '<f8', 'fortran_order': False, 'shape': (3,), }` (element count
3) and uninitialised memory that is all zero, `read_header` accepts the
BLOB and leaves the shape `[3, 8]` and the size 24. The `8` is the third
character of the descriptor, still in `buffer` behind the tuple text `3,`. -/
theorem C1_size_of_f8_3 :
    (read_header (ofBytes blob_f8_3) Header_data.zero Uninit.zero).ret = 67 ∧
    (read_header (ofBytes blob_f8_3) Header_data.zero Uninit.zero).header_data.shape = [3, 8] ∧
    (read_header (ofBytes blob_f8_3) Header_data.zero Uninit.zero).header_data.size = 24 ∧
    element_count [3] = 3 := by
  decide

/-- C2, the code at the failing input: for the synthetic BLOB with
descriptor `<f8` and shape `(3,)`, whatever the uninitialised memory holds,
`read_header` decodes the descriptor `<f8` but a shape that starts with 3
and has at least one more entry: `shape_len` is at least 2, not 1. -/
theorem C2_round_trip_f8_3 (hd : Header_data) (u : Uninit) :
    (read_header (ofBytes blob_f8_3) hd u).header_data.descr = bytesOf "<f8" ∧
    (read_header (ofBytes blob_f8_3) hd u).header_data.shape.head? = some 3 ∧
    2 ≤ (read_header (ofBytes blob_f8_3) hd u).header_data.shape_len ∧
    (read_header (ofBytes blob_f8_3) hd u).header_data.shape ≠ [3] := by
  have h1 := read_header_blob_f8_3_descr hd u
  have h2 := read_header_blob_f8_3_shape hd u
  have h3 := read_header_blob_f8_3_shape_len hd u
  rw [strtok_tokens_stale] at h2 h3
  have hne := strtok_tokens_ne_nil 44 (cstr (u.tuple_tail 42)) [56] (by simp)
  have hlen : 0 < ((strtok_tokens 44 (cstr (u.tuple_tail 42)) [56]).map atoi).length := by
    rw [List.length_map]; exact List.length_pos.2 hne
  refine ⟨h1.trans (by decide), by rw [h2]; rfl, ?_, ?_⟩
  · rw [h3, List.length_cons]; omega
  · rw [h2]
    intro hc
    rw [List.cons.injEq] at hc
    rw [hc.2] at hlen
    exact absurd hlen (by simp)

/-- When the decoded size exceeds 15, the text returned by `BLOB_to_str`
for an accepted BLOB ends with the ellipsis marker. -/
theorem BLOB_to_str_marker (f : Printf) (p : Mem) (u : Uninit)
    (hacc : 0 ≤ (decoded p u).ret) (h15 : 15 < (decoded p u).header_data.size) :
    ∃ t, (BLOB_to_str f p u).val = t ++ ELLIPSIS := by
  unfold decoded at hacc h15
  have hacc2 : ¬ (read_header p u.header_data u).ret < 0 := by omega
  have h1 : ¬ (15 > (read_header p u.header_data u).header_data.size) := by omega
  unfold BLOB_to_str
  simp only [hacc2, if_false, h1, h15, if_true]
  exact ⟨_, rfl⟩

/-- C7, the code at the failing input: for the three 64-bit floats under
shape `(3,)` (element count 3, not more than 15) and uninitialised memory
that is all zero, `BLOB_to_str` renders with the decoded size 24, and the
text returned ends with the ellipsis marker whatever the floating-point
conversions print. -/
theorem C7_marker_of_f8_3 (f : Printf) :
    0 ≤ (decoded (ofBytes blob_f8_3) Uninit.zero).ret ∧
    element_count [3] ≤ 15 ∧
    (decoded (ofBytes blob_f8_3) Uninit.zero).header_data.size = 24 ∧
    ∃ t, (BLOB_to_str f (ofBytes blob_f8_3) Uninit.zero).val = t ++ ELLIPSIS :=
  ⟨by decide, by decide, by decide,
    BLOB_to_str_marker f (ofBytes blob_f8_3) Uninit.zero (by decide) (by decide)⟩

/-! ## The indices that are read -/

theorem reads_below_cons {L i : Nat} {r : List Nat} (hi : i < L) (hr : reads_below L r) :
    reads_below L (i :: r) := by
  intro k hk
  rcases List.mem_cons.1 hk with rfl | h
  · exact hi
  · exact hr k h

theorem reads_below_append {L : Nat} {a b : List Nat} (ha : reads_below L a)
    (hb : reads_below L b) : reads_below L (a ++ b) := by
  intro k hk
  rcases List.mem_append.1 hk with h | h
  · exact ha k h
  · exact hb k h

theorem reads_below_mono {L M : Nat} {r : List Nat} (h : reads_below L r) (hLM : L ≤ M) :
    reads_below M r := fun k hk => Nat.lt_of_lt_of_le (h k hk) hLM

theorem magic_loop_reads_below (p : Mem) (L n i : Nat) (r : List Nat)
    (hr : reads_below L r) (hL : i + n ≤ L) : reads_below L (magic_loop p n i r).2 := by
  induction n generalizing i r with
  | zero => simpa [magic_loop] using hr
  | succ n ih =>
    unfold magic_loop
    split
    · exact reads_below_cons (by omega) hr
    · exact ih _ _ (reads_below_cons (by omega) hr) (by omega)

theorem read_magic_traced_reads_below (p : Mem) (L : Nat) (hL : 8 ≤ L) :
    reads_below L (read_magic_traced p).reads := by
  have h := magic_loop_reads_below p L MAGIC_LEN 0 [] (by intro k hk; simp at hk)
    (by simp only [MAGIC_LEN]; omega)
  unfold read_magic_traced
  simp only
  split
  · simp only [version_loop, MAGIC_LEN, VERSION_LEN] at h ⊢
    exact reads_below_cons (by omega) (reads_below_cons (by omega) h)
  · exact h

theorem descr_loop_reads_below (p : Mem) (L n j : Nat) (is_open : Bool) (s : Scan)
    (hr : reads_below L s.reads) (hL : start_hdr + j + n ≤ L) :
    reads_below L (descr_loop p n j is_open s).reads := by
  induction n generalizing j is_open s with
  | zero => simpa [descr_loop] using hr
  | succ n ih =>
    unfold descr_loop
    simp only
    have h1 : reads_below L ((start_hdr + j) :: s.reads) := reads_below_cons (by omega) hr
    split
    · split
      · exact h1
      · exact ih _ _ _ h1 (by omega)
    · split
      · exact ih _ _ _ h1 (by omega)
      · exact ih _ _ _ h1 (by omega)

theorem shape_loop_reads_below (p : Mem) (L n j : Nat) (is_open : Bool) (s : Scan)
    (hr : reads_below L s.reads) (hL : start_hdr + j + n ≤ L) :
    reads_below L (shape_loop p n j is_open s).reads := by
  induction n generalizing j is_open s with
  | zero => simpa [shape_loop] using hr
  | succ n ih =>
    unfold shape_loop
    simp only
    have h1 : reads_below L ((start_hdr + j) :: s.reads) := reads_below_cons (by omega) hr
    split
    · exact ih _ _ _ h1 (by omega)
    · split
      · exact h1
      · split
        · exact ih _ _ _ h1 (by omega)
        · exact ih _ _ _ h1 (by omega)

theorem fortran_loop_reads_below (p : Mem) (L n j : Nat) (r : List Nat)
    (hr : reads_below L r) (hL : start_hdr + j + n ≤ L) :
    reads_below L (fortran_loop p n j r).2 := by
  induction n generalizing j r with
  | zero => simpa [fortran_loop] using hr
  | succ n ih =>
    unfold fortran_loop
    simp only
    have h1 : reads_below L ((start_hdr + j) :: r) := reads_below_cons (by omega) hr
    split
    · exact h1
    · split
      · exact h1
      · exact ih _ _ h1 (by omega)

theorem descr_key_reads_below (p : Mem) (u : Uninit) (L hl i0 : Nat) (s : State)
    (hr : reads_below L s.reads) (hL : start_hdr + hl + 13 ≤ L) (hi : i0 < hl) :
    reads_below L (descr_key p u hl i0 s).reads := by
  unfold descr_key
  exact descr_loop_reads_below p L _ _ _ _ hr (by omega)

theorem shape_key_reads_below (p : Mem) (u : Uninit) (L hl i0 : Nat) (s : State)
    (hr : reads_below L s.reads) (hL : start_hdr + hl + 13 ≤ L) (hi : i0 < hl) :
    reads_below L (shape_key p u hl i0 s).reads := by
  unfold shape_key
  exact shape_loop_reads_below p L _ _ _ _ hr (by omega)

/-- The main loop of `read_header` reads below `start_hdr + header_length + 13`:
the key tests look up to 13 characters ahead of the index. -/
theorem header_loop_reads_below (p : Mem) (u : Uninit) (L hl fuel i : Nat) (s : State)
    (hr : reads_below L s.reads) (hL : start_hdr + hl + 13 ≤ L) :
    reads_below L (header_loop p u hl fuel i s).reads := by
  induction fuel generalizing i s with
  | zero => simpa [header_loop] using hr
  | succ fuel ih =>
    unfold header_loop
    split
    · exact hr
    · rename_i hi
      simp only
      have h0 : reads_below L ((start_hdr + i) :: s.reads) := reads_below_cons (by omega) hr
      have h5 : reads_below L ((start_hdr + i + 5) :: (start_hdr + i) :: s.reads) :=
        reads_below_cons (by omega) h0
      have h13 : reads_below L ((start_hdr + i + 13) :: (start_hdr + i) :: s.reads) :=
        reads_below_cons (by omega) h0
      split
      · split
        · exact ih _ _ (descr_key_reads_below p u L hl i _ h5 hL (by omega))
        · exact ih _ _ h5
      · split
        · split
          · exact ih _ _ (shape_key_reads_below p u L hl i _ h5 hL (by omega))
          · exact ih _ _ h5
        · split
          · split
            · have hf := fortran_loop_reads_below p L (hl - (i + 14)) (i + 14)
                ((start_hdr + i + 13) :: (start_hdr + i) :: s.reads) h13 (by omega)
              split
              · exact ih _ _ hf
              · exact ih _ _ hf
              · exact ih _ _ hf
            · exact ih _ _ h13
          · split
            · exact h0
            · exact ih _ _ h0

/-- The reads of `read_header`: below 10 for a BLOB that is not accepted,
below `header_length + 23` for one that is. -/
theorem read_header_reads_below (p : Mem) (hd : Header_data) (u : Uninit) (L : Nat)
    (h10 : 10 ≤ L)
    (hhdr : 0 ≤ (read_header p hd u).ret → header_length_field p + 23 ≤ L) :
    reads_below L (read_header p hd u).reads := by
  have hm := read_magic_traced_reads_below p L (by omega)
  have hlr : ∀ r, reads_below L r → reads_below L (read_header_length_traced p r).reads := by
    intro r hr
    simp only [read_header_length_traced, MAGIC_LEN, VERSION_LEN]
    exact reads_below_cons (by omega) (reads_below_cons (by omega) hr)
  have hlv := read_header_length_traced_val p (read_magic_traced p).reads
  unfold read_header at hhdr ⊢
  simp only at hhdr ⊢
  split
  · exact hm
  · split
    · exact hm
    · split
      · exact hlr _ hm
      · rename_i h1 h2 h3
        simp only [h1, h2, h3, if_false] at hhdr
        rw [hlv] at hhdr h3 ⊢
        have := hhdr (by simp only [start_hdr]; omega)
        exact header_loop_reads_below p u L _ _ _ _ (hlr _ hm)
          (by simp only [start_hdr, MAGIC_LEN, VERSION_LEN, Int.toNat_ofNat]; omega)

theorem word_reads_below (L off w : Nat) (h : off + w ≤ L) : reads_below L (word_reads off w) := by
  intro k hk
  simp only [word_reads, List.mem_reverse, List.mem_map, List.mem_range] at hk
  obtain ⟨b, hb, rfl⟩ := hk
  omega

theorem add_reads_below {L : Nat} (o : Out) (chunk : List Char) (r : List Nat)
    (ho : reads_below L o.reads) (hr : reads_below L r) :
    reads_below L (o.add chunk r).reads := reads_below_append hr ho

theorem int_loop_reads_below (p : Mem) (L data w n j : Nat) (o : Out)
    (ho : reads_below L o.reads) (hL : data + w * (j + n) ≤ L) :
    reads_below L (int_loop p data w n j o).reads := by
  induction n generalizing j o with
  | zero => simpa [int_loop] using ho
  | succ n ih =>
    unfold int_loop
    have e : w * (j + (n + 1)) = w * j + w + w * n := by ring
    split
    · refine ih _ _ (add_reads_below o _ _ ho (word_reads_below L _ _ (by omega))) ?_
      have e2 : w * (j + 1 + n) = w * j + w + w * n := by ring
      omega
    · exact ho

theorem float_loop_reads_below (f : Printf) (p : Mem) (L data w n j : Nat) (o : Out)
    (ho : reads_below L o.reads) (hL : data + w * (j + n) ≤ L) :
    reads_below L (float_loop f p data w n j o).reads := by
  induction n generalizing j o with
  | zero => simpa [float_loop] using ho
  | succ n ih =>
    unfold float_loop
    have e : w * (j + (n + 1)) = w * j + w + w * n := by ring
    split
    · refine ih _ _ (add_reads_below o _ _ ho (word_reads_below L _ _ (by omega))) ?_
      have e2 : w * (j + 1 + n) = w * j + w + w * n := by ring
      omega
    · exact ho

theorem complex_loop_reads_below (f : Printf) (p : Mem) (L data w n j : Nat) (o : Out)
    (ho : reads_below L o.reads) (hL : data + w / 2 * (j + 2 * n) ≤ L) :
    reads_below L (complex_loop f p data w n j o).reads := by
  induction n generalizing j o with
  | zero => simpa [complex_loop] using ho
  | succ n ih =>
    unfold complex_loop
    have e : w / 2 * (j + 2 * (n + 1)) = w / 2 * j + w / 2 + w / 2 + w / 2 * (2 * n) := by ring
    have e1 : w / 2 * (j + 1) = w / 2 * j + w / 2 := by ring
    split
    · refine ih _ _ (add_reads_below o _ _ ho (reads_below_append
        (word_reads_below L _ _ (by omega)) (word_reads_below L _ _ (by omega)))) ?_
      have e2 : w / 2 * (j + 2 + 2 * n) = w / 2 * j + w / 2 + w / 2 + w / 2 * (2 * n) := by ring
      omega
    · exact ho

theorem render_reads_below (f : Printf) (p : Mem) (hd : Header_data) (L data n : Nat)
    (N : Int) (o : Out) (hN : N.toNat = n)
    (ho : reads_below L o.reads) (hL : data + n * hd.wordsize_in_bytes ≤ L) :
    reads_below L (render f p hd data N o).reads := by
  unfold render
  rw [hN]
  split
  · exact ho
  · split
    · exact int_loop_reads_below p L _ _ _ _ _ ho (by rw [Nat.zero_add, Nat.mul_comm]; exact hL)
    · split
      · exact float_loop_reads_below f p L _ _ _ _ _ ho
          (by rw [Nat.zero_add, Nat.mul_comm]; exact hL)
      · split
        · refine complex_loop_reads_below f p L _ _ _ _ _ ho ?_
          have : hd.wordsize_in_bytes / 2 * (0 + 2 * n) ≤ n * hd.wordsize_in_bytes := by
            rw [Nat.zero_add, ← Nat.mul_assoc, Nat.mul_comm _ n, Nat.mul_comm (_ / 2) 2]
            exact Nat.mul_le_mul_left _ (Nat.mul_div_le _ 2)
          omega
        · split
          · exact add_reads_below _ _ _ ho (by intro k hk; simp at hk)
          · exact add_reads_below _ _ _ ho (by intro k hk; simp at hk)

theorem ite_reads {α : Type} (c : Prop) [Decidable c] (a b : α) (r : List Nat) :
    (if c then (⟨a, r⟩ : Traced α) else ⟨b, r⟩).reads = r := by
  split <;> rfl

/-- The reads of `BLOB_to_str` are inside a BLOB of `L` bytes that holds,
when it is accepted, the metadata text and 13 bytes more, and the
`min(15, size)` words that are rendered. -/
theorem BLOB_to_str_reads_below (f : Printf) (p : Mem) (u : Uninit) (L : Nat)
    (h10 : 10 ≤ L)
    (hhdr : 0 ≤ (decoded p u).ret → header_length_field p + 23 ≤ L)
    (hpay : 0 ≤ (decoded p u).ret →
      (decoded p u).ret.toNat
        + preview_count (decoded p u).header_data.size
          * (decoded p u).header_data.wordsize_in_bytes ≤ L) :
    reads_below L (BLOB_to_str f p u).reads := by
  have hh := read_header_reads_below p u.header_data u L h10 hhdr
  unfold decoded at hhdr hpay
  have key2 : ∀ c : Int, (if 15 > c then c else 15).toNat = preview_count c := by
    intro c; unfold preview_count; split <;> omega
  unfold BLOB_to_str
  simp only
  by_cases hacc : (read_header p u.header_data u).ret < 0
  · simp only [hacc, if_true]; exact hh
  · simp only [hacc, if_false]
    have ho := render_reads_below f p (read_header p u.header_data u).header_data L
      (read_header p u.header_data u).ret.toNat _ _ ⟨u.out, (read_header p u.header_data u).reads⟩
      (key2 _) hh (hpay (by omega))
    rw [ite_reads]
    exact ho

theorem read_header_ret_eq (p : Mem) (hd hd2 : Header_data) (u : Uninit) :
    (read_header p hd u).ret = (read_header p hd2 u).ret := by
  unfold read_header
  simp only
  split
  · rfl
  · split
    · rfl
    · split <;> rfl

/-- C3, as stated, fails on a BLOB of 40 bytes whose metadata text is cut
off (the header length field says 57): `read_header` and `BLOB_to_str` read
indices that are not smaller than 40. -/
theorem C3_reads_counterexample :
    blob_truncated.length = 40 ∧
    ¬ reads_below blob_truncated.length
      (read_header (ofBytes blob_truncated) Header_data.zero Uninit.zero).reads ∧
    ¬ reads_below blob_truncated.length
      (BLOB_to_str Printf.blank (ofBytes blob_truncated) Uninit.zero).reads := by
  decide

/-- C3, amended: a BLOB of actual length `L ≥ 10` that, when `read_header`
accepts it, holds the metadata text and 13 bytes more
(`header_length + 23 ≤ L`) and the `n = min(15, size)` words of
`wordsize_in_bytes` bytes that are previewed
(`payload_offset + n * wordsize_in_bytes ≤ L`): every byte index read by
`read_header` and by `BLOB_to_str` is smaller than `L`. -/
theorem C3_reads_in_range (f : Printf) (p : Mem) (hd : Header_data) (u : Uninit) (L : Nat)
    (h10 : 10 ≤ L)
    (hhdr : 0 ≤ (decoded p u).ret → header_length_field p + 23 ≤ L)
    (hpay : 0 ≤ (decoded p u).ret →
      (decoded p u).ret.toNat
        + preview_count (decoded p u).header_data.size
          * (decoded p u).header_data.wordsize_in_bytes ≤ L) :
    reads_below L (read_header p hd u).reads ∧ reads_below L (BLOB_to_str f p u).reads := by
  refine ⟨read_header_reads_below p hd u L h10 ?_, BLOB_to_str_reads_below f p u L h10 hhdr hpay⟩
  intro h
  rw [read_header_ret_eq p hd u.header_data u] at h
  exact hhdr h

set_option maxRecDepth 100000 in
/-- C3 (amended) at the twenty 32-bit integers `0..19`, a BLOB of 148 bytes. -/
theorem C3_reads_in_range_witness :
    reads_below blob_i4_20.length
      (read_header (ofBytes blob_i4_20) Header_data.zero Uninit.zero).reads ∧
    reads_below blob_i4_20.length
      (BLOB_to_str Printf.blank (ofBytes blob_i4_20) Uninit.zero).reads :=
  C3_reads_in_range Printf.blank (ofBytes blob_i4_20) Header_data.zero Uninit.zero
    blob_i4_20.length (by decide) (by decide) (by decide)

/-! ## The fuel of the main loop -/

/-- The main loop of `read_header` ends by its own test: any amount of fuel
from `header_length - i` on gives the same final state. -/
theorem header_loop_fuel (p : Mem) (u : Uninit) (hl : Nat) (fuel fuel2 i : Nat) (s : State)
    (h1 : hl - i ≤ fuel) (h2 : hl - i ≤ fuel2) :
    header_loop p u hl fuel i s = header_loop p u hl fuel2 i s := by
  induction fuel generalizing fuel2 i s with
  | zero =>
    have hi : hl ≤ i := by omega
    cases fuel2 with
    | zero => rfl
    | succ f2 => simp [header_loop, hi]
  | succ f ih =>
    cases fuel2 with
    | zero =>
      have hi : hl ≤ i := by omega
      simp [header_loop, hi]
    | succ f2 =>
      unfold header_loop
      split
      · rfl
      · simp only
        split
        · split
          · exact ih _ _ _ (by omega) (by omega)
          · exact ih _ _ _ (by omega) (by omega)
        · split
          · split
            · exact ih _ _ _ (by omega) (by omega)
            · exact ih _ _ _ (by omega) (by omega)
          · split
            · split
              · split
                · exact ih _ _ _ (by omega) (by omega)
                · exact ih _ _ _ (by omega) (by omega)
                · exact ih _ _ _ (by omega) (by omega)
              · exact ih _ _ _ (by omega) (by omega)
            · split
              · rfl
              · exact ih _ _ _ (by omega) (by omega)

/-! ## Failure leaves the header alone; the version number -/

/-- C15: when `read_header` returns a negative code, the caller's header is
exactly as it was before the call; the negative codes are -1, -2 and -3. -/
theorem C15_header_untouched_on_failure (p : Mem) (hd : Header_data) (u : Uninit)
    (h : (read_header p hd u).ret < 0) :
    (read_header p hd u).header_data = hd ∧
    ((read_header p hd u).ret = -1 ∨ (read_header p hd u).ret = -2 ∨
      (read_header p hd u).ret = -3) := by
  have hlv := read_header_length_traced_val p (read_magic_traced p).reads
  unfold read_header at h ⊢
  simp only at h ⊢
  split
  · exact ⟨rfl, Or.inl rfl⟩
  · split
    · exact ⟨rfl, Or.inr (Or.inl rfl)⟩
    · split
      · exact ⟨rfl, Or.inr (Or.inr rfl)⟩
      · rename_i h1 h2 h3
        simp only [h1, h2, h3, if_false] at h
        rw [hlv] at h h3
        simp only [start_hdr] at h
        omega

/-- C15 at the BLOB with version 2.0, which is rejected with -2. -/
theorem C15_header_untouched_on_failure_witness :
    (read_header (ofBytes blob_v2) Header_data.zero Uninit.zero).header_data
      = Header_data.zero :=
  (C15_header_untouched_on_failure (ofBytes blob_v2) Header_data.zero Uninit.zero
    (by decide)).1

/-- C16: for a BLOB that starts with the signature, `read_magic` returns
exactly `10 * major + minor` of the two version bytes, a value between 0
and 2805 and never -1. -/
theorem C16_read_magic_version (p : Mem) (h : has_signature p) :
    read_magic p = 10 * (rd p 6 : Int) + rd p 7 ∧
    0 ≤ read_magic p ∧ read_magic p ≤ 2805 ∧ read_magic p ≠ -1 := by
  have a := rd_lt p 6
  have b := rd_lt p 7
  have e : read_magic p = (version_number p : Int) := by
    unfold read_magic
    rw [read_magic_traced_of_signature p h]
  rw [e]
  simp only [version_number]
  push_cast
  omega

/-- C16 at a BLOB with version 1.0: `read_magic` returns 10. -/
theorem C16_read_magic_version_witness : read_magic (ofBytes blob_v1) = 10 :=
  (C16_read_magic_version (ofBytes blob_v1) (by decide)).1.trans (by decide)

theorem numpy_version_of_not_signature (p : Mem) (h : ¬ has_signature p) :
    numpy_version (.blob p) = .int 65535 := by
  have e : read_magic p = -1 := (read_magic_eq_neg_one_iff p).2 h
  simp only [numpy_version, e, toUShort]
  norm_num

/-- C17, the code at the failing input: for a BLOB of eight zero bytes, which
does not start with the signature, `numpy_version` does not pass the value
through: it sets the integer 65535 as the result (`-1` stored in the
`unsigned short version` never compares equal to `-1`). -/
theorem C17_numpy_version_of_zeros :
    ¬ has_signature (ofBytes blob_zeros) ∧
    numpy_version (.blob (ofBytes blob_zeros)) = .int 65535 :=
  ⟨by decide, numpy_version_of_not_signature _ (by decide)⟩

/-! ## The kinds that are not rendered -/

/-- The text returned by `BLOB_to_str` for an accepted BLOB, in terms of
`render`. -/
theorem BLOB_to_str_val (f : Printf) (p : Mem) (u : Uninit) (hacc : 0 ≤ (decoded p u).ret) :
    (BLOB_to_str f p u).val =
      (render f p (decoded p u).header_data (decoded p u).ret.toNat
        (if 15 > (decoded p u).header_data.size then (decoded p u).header_data.size else 15)
        ⟨u.out, (decoded p u).reads⟩).text
      ++ marker (preview_count (decoded p u).header_data.size) (decoded p u).header_data.size := by
  unfold decoded at hacc ⊢
  have hacc2 : ¬ (read_header p u.header_data u).ret < 0 := by omega
  unfold BLOB_to_str
  simp only [hacc2, if_false, marker, preview_count]
  have key : ∀ c : Int, ((if 15 > c then c else 15) < c ↔ ((min 15 c).toNat : Int) < c) := by
    intro c; split <;> omega
  by_cases hc : (if 15 > (read_header p u.header_data u).header_data.size then
      (read_header p u.header_data u).header_data.size else 15)
      < (read_header p u.header_data u).header_data.size
  · have h2 := (key _).1 hc
    simp only [hc, h2, if_true]
    rfl
  · have h2 : ¬ ((min 15 (read_header p u.header_data u).header_data.size).toNat : Int)
        < (read_header p u.header_data u).header_data.size := fun h => hc ((key _).2 h)
    simp only [hc, h2, if_false, List.append_nil]

/-- C11, as stated, fails on an array of objects (descriptor `|O`): the BLOB
is accepted, its kind character is `'O'`, and the text returned is empty,
not a message. -/
theorem C11_object_kind_counterexample :
    0 ≤ (decoded (ofBytes blob_O_3) Uninit.zero).ret ∧
    (decoded (ofBytes blob_O_3) Uninit.zero).header_data.type = 'O'.toNat ∧
    (BLOB_to_str Printf.blank (ofBytes blob_O_3) Uninit.zero).val = [] := by
  decide

/-- C11, amended: for an accepted BLOB and an output buffer that starts
empty, `BLOB_to_str` renders no payload element for the kinds `'U'` and
`'O'`: for `'U'` the text is the message `data type U not yet supported`,
for `'O'` it is empty; in both cases the ellipsis marker follows when the
decoded `size` exceeds 15. -/
theorem C11_unrendered_kinds (f : Printf) (p : Mem) (u : Uninit)
    (hacc : 0 ≤ (decoded p u).ret) (hout : u.out = []) :
    ((decoded p u).header_data.type = 'U'.toNat →
      (BLOB_to_str f p u).val = MESSAGE_U
        ++ marker (preview_count (decoded p u).header_data.size)
            (decoded p u).header_data.size) ∧
    ((decoded p u).header_data.type = 'O'.toNat →
      (BLOB_to_str f p u).val =
        marker (preview_count (decoded p u).header_data.size)
          (decoded p u).header_data.size) := by
  rw [BLOB_to_str_val f p u hacc]
  constructor
  · intro hU
    have h1 : ¬ ('U'.toNat = 'O'.toNat) := by decide
    have h2 : ¬ ('U'.toNat = 'i'.toNat) := by decide
    have h3 : ¬ ('U'.toNat = 'f'.toNat) := by decide
    have h4 : ¬ ('U'.toNat = 'c'.toNat) := by decide
    simp only [render, hU, h1, h2, h3, h4, if_false, if_true, Out.add, hout, List.nil_append]
    rfl
  · intro hO
    simp only [render, hO, if_true, hout, List.nil_append]

set_option maxRecDepth 100000 in
/-- C11 (amended) at twenty texts of kind `'U'`: the message, then the marker. -/
theorem C11_unrendered_kinds_witness :
    (BLOB_to_str Printf.blank (ofBytes blob_U1_20) Uninit.zero).val = MESSAGE_U
      ++ marker (preview_count (decoded (ofBytes blob_U1_20) Uninit.zero).header_data.size)
          (decoded (ofBytes blob_U1_20) Uninit.zero).header_data.size :=
  (C11_unrendered_kinds Printf.blank (ofBytes blob_U1_20) Uninit.zero (by decide) rfl).1
    (by decide)

/-! ## Invariants of the main loop -/

/-- A property of the header that the bodies of the three keys preserve is
preserved by the main loop of `read_header`. -/
theorem header_loop_preserves (P : Header_data → Prop) (p : Mem) (u : Uninit) (hl : Nat)
    (hdk : ∀ i0 s, i0 < hl → descr_key_at p i0 → P s.header_data →
      P (descr_key p u hl i0 s).header_data)
    (hsk : ∀ i0 s, i0 < hl → shape_key_at p i0 → P s.header_data →
      P (shape_key p u hl i0 s).header_data)
    (hfk : ∀ (h : Header_data) (b : Bool), P h → P { h with fortran_order := b })
    (fuel i : Nat) (s : State) (hP : P s.header_data) :
    P (header_loop p u hl fuel i s).header_data := by
  induction fuel generalizing i s with
  | zero => simpa [header_loop] using hP
  | succ fuel ih =>
    unfold header_loop
    split
    · exact hP
    · rename_i hi
      simp only
      split
      · rename_i hc
        split
        · rename_i hq
          exact ih _ _ (hdk i _ (by omega) ⟨hc, hq⟩ hP)
        · exact ih _ _ hP
      · split
        · rename_i hc
          split
          · rename_i hq
            exact ih _ _ (hsk i _ (by omega) ⟨hc, hq⟩ hP)
          · exact ih _ _ hP
        · split
          · split
            · split
              · exact ih _ _ (hfk _ true hP)
              · exact ih _ _ (hfk _ false hP)
              · exact ih _ _ hP
            · exact ih _ _ hP
          · split
            · exact hP
            · exact ih _ _ hP

theorem read_header_of_not_signature (p : Mem) (hd : Header_data) (u : Uninit)
    (h : ¬ has_signature p) : (read_header p hd u).header_data = hd := by
  have e := read_magic_traced_of_not_signature p h
  unfold read_header
  simp only [e, if_true]

/-- The header that `read_header` leaves: the caller's, or that of the main
loop run over `header_length` characters. -/
theorem read_header_header_data (p : Mem) (hd : Header_data) (u : Uninit) :
    (read_header p hd u).header_data = hd ∨
    ∃ hl r, (read_header p hd u).header_data
      = (header_loop p u hl hl 0 ⟨hd, u.buffer, r⟩).header_data := by
  by_cases hs : has_signature p
  · rw [read_header_of_signature p hd u hs]
    split
    · exact Or.inl rfl
    · split
      · exact Or.inl rfl
      · exact Or.inr ⟨header_length_field p, length_reads, rfl⟩
  · exact Or.inl (read_header_of_not_signature p hd u hs)

/-- The same for `read_header`, whatever value it returns. -/
theorem read_header_preserves (P : Header_data → Prop) (p : Mem) (hd : Header_data)
    (u : Uninit)
    (hdk : ∀ hl i0 s, i0 < hl → descr_key_at p i0 → P s.header_data →
      P (descr_key p u hl i0 s).header_data)
    (hsk : ∀ hl i0 s, i0 < hl → shape_key_at p i0 → P s.header_data →
      P (shape_key p u hl i0 s).header_data)
    (hfk : ∀ (h : Header_data) (b : Bool), P h → P { h with fortran_order := b })
    (hP : P hd) :
    P (read_header p hd u).header_data := by
  rcases read_header_header_data p hd u with h | ⟨hl, r, h⟩
  · rw [h]; exact hP
  · rw [h]
    exact header_loop_preserves P p u hl (hdk hl) (hsk hl) hfk hl 0 ⟨hd, u.buffer, r⟩ hP

/-! ## The fields derived from the descriptor -/

theorem descr_key_fields (p : Mem) (u : Uninit) (hl i0 : Nat) (s : State) :
    ∃ D tail, (descr_key p u hl i0 s).header_data =
      { s.header_data with
        descr := D
        descr_len := D.length
        littleEndian := (D ++ 0 :: tail).getD 0 0 = '<'.toNat ∨ (D ++ 0 :: tail).getD 0 0 = '|'.toNat
        type := (D ++ 0 :: tail).getD 1 0
        wordsize_in_bytes := toUInt32 (atoi ((D ++ 0 :: tail).drop 2)) } := by
  refine ⟨buffer_head (descr_loop p (hl - (i0 + 6)) (i0 + 6) false ⟨s.buffer, 0, s.reads⟩).buffer
    (descr_loop p (hl - (i0 + 6)) (i0 + 6) false ⟨s.buffer, 0, s.reads⟩).counter, u.desc_tail i0, ?_⟩
  simp [descr_key, buffer_head]

theorem shape_key_descr_untouched (p : Mem) (u : Uninit) (hl i0 : Nat) (s : State) :
    descr_untouched s.header_data (shape_key p u hl i0 s).header_data := by
  simp [shape_key, descr_untouched]

theorem descr_key_shape_untouched (p : Mem) (u : Uninit) (hl i0 : Nat) (s : State) :
    shape_untouched s.header_data (descr_key p u hl i0 s).header_data := by
  simp [descr_key, shape_untouched]

theorem digits_value_append (ds tl : List Nat) (acc : Nat) (h : all_digits ds) :
    digits_value (ds ++ 0 :: tl) acc = digits_value ds acc := by
  induction ds generalizing acc with
  | nil => simp [digits_value, isdigit]
  | cons c cs ih =>
    have hc : isdigit c = true := h c (List.mem_cons_self _ _)
    simp only [List.cons_append, digits_value, hc, if_true]
    exact ih _ (fun d hd => h d (List.mem_cons_of_mem _ hd))

theorem strip_sign_of_no_sign (l : List Nat) (h1 : l.head? ≠ some 45) (h2 : l.head? ≠ some 43) :
    strip_sign l = (false, l) := by
  unfold strip_sign
  split
  · exact absurd rfl h1
  · exact absurd rfl h2
  · rfl

/-- `atoi` of a text of digits, ended by a NUL. -/
theorem atoi_digits (ds tl : List Nat) (h : all_digits ds) (hv : digits_value ds 0 < 2 ^ 31) :
    atoi (ds ++ 0 :: tl) = digits_value ds 0 := by
  have hhead : ∀ c, (ds ++ 0 :: tl).head? = some c → c = 0 ∨ isdigit c = true := by
    intro c hc
    cases ds with
    | nil => simp at hc; exact Or.inl hc.symm
    | cons d t =>
      simp at hc
      exact Or.inr (hc ▸ h d (List.mem_cons_self _ _))
  have hdrop : (ds ++ 0 :: tl).dropWhile isspace = ds ++ 0 :: tl := by
    cases hl : ds ++ 0 :: tl with
    | nil => rfl
    | cons c t =>
      have := hhead c (by rw [hl]; rfl)
      have hns : isspace c = false := by
        rcases this with rfl | hd
        · decide
        · simp only [isdigit, Bool.and_eq_true, decide_eq_true_eq] at hd
          simp only [isspace, Bool.or_eq_false_iff, Bool.and_eq_false_iff, beq_eq_false_iff_ne,
            decide_eq_false_iff_not]
          omega
      simp [List.dropWhile, hns]
  have hsign : strip_sign (ds ++ 0 :: tl) = (false, ds ++ 0 :: tl) := by
    apply strip_sign_of_no_sign
    · intro hc
      rcases hhead 45 hc with h0 | hd
      · omega
      · exact absurd hd (by decide)
    · intro hc
      rcases hhead 43 hc with h0 | hd
      · omega
      · exact absurd hd (by decide)
  have hv2 : digits_value ds 0 < 2147483648 := by simpa using hv
  unfold atoi strtol
  simp only [hdrop, hsign, Bool.false_eq_true, if_false, digits_value_append ds tl 0 h]
  simp only [toInt32]
  omega

theorem descr_key_endian_consistent (p : Mem) (u : Uninit) (hl i0 : Nat) (s : State) :
    endian_consistent (descr_key p u hl i0 s).header_data := by
  obtain ⟨D, tail, h⟩ := descr_key_fields p u hl i0 s
  rw [h]
  cases D with
  | nil => simp [endian_consistent]
  | cons c t => simp [endian_consistent]

theorem read_header_endian (p : Mem) (hd : Header_data) (u : Uninit) :
    endian_consistent (read_header p hd u).header_data ∨
    descr_untouched hd (read_header p hd u).header_data := by
  refine read_header_preserves
    (fun o => endian_consistent o ∨ descr_untouched hd o) p hd u ?_ ?_ ?_ ?_
  · intro hl i0 s _ _ _
    exact Or.inl (descr_key_endian_consistent p u hl i0 s)
  · intro hl i0 s _ _ h
    have hu := shape_key_descr_untouched p u hl i0 s
    simp only [descr_untouched, endian_consistent] at hu h ⊢
    rcases h with h | h
    · left; rw [hu.1, hu.2.2.2.1]; exact h
    · right
      exact ⟨hu.1.trans h.1, hu.2.1.trans h.2.1, hu.2.2.1.trans h.2.2.1,
        hu.2.2.2.1.trans h.2.2.2.1, hu.2.2.2.2.trans h.2.2.2.2⟩
  · intro h b hP
    exact hP
  · exact Or.inr ⟨rfl, rfl, rfl, rfl, rfl⟩

set_option maxRecDepth 100000 in
/-- C19, as stated, fails for the descriptor `=i4`: `read_header` decodes the
descriptor, whose first character is `=`, and leaves `littleEndian` false. -/
theorem C19_native_order_counterexample :
    (read_header (ofBytes blob_native_i4) Header_data.zero Uninit.zero).header_data.descr
      = bytesOf "=i4" ∧
    (read_header (ofBytes blob_native_i4) Header_data.zero Uninit.zero).header_data.littleEndian
      = false := by
  decide

/-- C19, amended: the header that `read_header` leaves has `littleEndian`
true exactly when the first character of its descriptor is `<` or `|`
(false for `=`, for `>`, for any other character and for an empty
descriptor), unless `read_header` left the fields of the descriptor as the
caller had them. -/
theorem C19_little_endian_flag (p : Mem) (hd : Header_data) (u : Uninit) :
    ((read_header p hd u).header_data.littleEndian = true ↔
      ((read_header p hd u).header_data.descr.head? = some '<'.toNat ∨
        (read_header p hd u).header_data.descr.head? = some '|'.toNat)) ∨
    descr_untouched hd (read_header p hd u).header_data :=
  read_header_endian p hd u

theorem descr_key_kind (p : Mem) (u : Uninit) (hl i0 : Nat) (s : State) (e k : Nat)
    (ds : List Nat) (hform : (descr_key p u hl i0 s).header_data.descr = e :: k :: ds)
    (hdig : all_digits ds) (hval : digits_value ds 0 < 2 ^ 31) :
    (descr_key p u hl i0 s).header_data.type = k ∧
    (descr_key p u hl i0 s).header_data.wordsize_in_bytes = digits_value ds 0 := by
  obtain ⟨D, tail, h⟩ := descr_key_fields p u hl i0 s
  rw [h] at hform ⊢
  simp only at hform ⊢
  subst hform
  have ha := atoi_digits ds tail hdig hval
  simp only [List.cons_append, List.getD_cons_succ, List.getD_cons_zero, List.drop_succ_cons,
    List.drop_zero, ha, toUInt32, true_and]
  have hv2 : digits_value ds 0 < 2147483648 := by simpa using hval
  omega

/-- C20: when the descriptor that `read_header` leaves has the form endian
character, kind character, decimal digits (of a value below `2^31`), then
`type` is the kind character and `wordsize_in_bytes` the value of the
digits, unless `read_header` left the fields of the descriptor as the
caller had them (no descriptor was found in the metadata). -/
theorem C20_kind_and_wordsize (p : Mem) (hd : Header_data) (u : Uninit) (e k : Nat)
    (ds : List Nat)
    (hform : (read_header p hd u).header_data.descr = e :: k :: ds)
    (hdig : all_digits ds) (hval : digits_value ds 0 < 2 ^ 31) :
    ((read_header p hd u).header_data.type = k ∧
      (read_header p hd u).header_data.wordsize_in_bytes = digits_value ds 0) ∨
    descr_untouched hd (read_header p hd u).header_data := by
  have key := read_header_preserves
    (fun o => (o.descr = e :: k :: ds → o.type = k ∧ o.wordsize_in_bytes = digits_value ds 0)
      ∨ descr_untouched hd o) p hd u ?_ ?_ ?_ ?_
  · rcases key with h | h
    · exact Or.inl (h hform)
    · exact Or.inr h
  · intro hl i0 s _ _ _
    exact Or.inl (fun hf => descr_key_kind p u hl i0 s e k ds hf hdig hval)
  · intro hl i0 s _ _ h
    have hu := shape_key_descr_untouched p u hl i0 s
    simp only [descr_untouched] at hu h ⊢
    rcases h with h | h
    · left; rw [hu.1, hu.2.2.1, hu.2.2.2.2]; exact h
    · right
      exact ⟨hu.1.trans h.1, hu.2.1.trans h.2.1, hu.2.2.1.trans h.2.2.1,
        hu.2.2.2.1.trans h.2.2.2.1, hu.2.2.2.2.trans h.2.2.2.2⟩
  · intro h b hP
    exact hP
  · exact Or.inr ⟨rfl, rfl, rfl, rfl, rfl⟩

set_option maxRecDepth 100000 in
/-- C20 at the descriptor `<i4`: kind `i`, word size 4. -/
theorem C20_kind_and_wordsize_witness :
    (read_header (ofBytes blob_i4_20) Header_data.zero Uninit.zero).header_data.type
      = 'i'.toNat ∧
    (read_header (ofBytes blob_i4_20) Header_data.zero Uninit.zero).header_data.wordsize_in_bytes
      = digits_value ['4'.toNat] 0 :=
  (C20_kind_and_wordsize (ofBytes blob_i4_20) Header_data.zero Uninit.zero '<'.toNat 'i'.toNat
    ['4'.toNat] (by decide) (by decide) (by decide)).resolve_right (by decide)

/-! ## Metadata without a key -/

theorem header_loop_descr_untouched (p : Mem) (u : Uninit) (hl : Nat) (hd : Header_data)
    (hno : ∀ i < hl, ¬ descr_key_at p i) (fuel i : Nat) (s : State)
    (h : descr_untouched hd s.header_data) :
    descr_untouched hd (header_loop p u hl fuel i s).header_data := by
  refine header_loop_preserves (fun o => descr_untouched hd o) p u hl ?_ ?_ ?_ fuel i s h
  · intro i0 s hi hk _
    exact absurd hk (hno i0 hi)
  · intro i0 s _ _ h
    have hu := shape_key_descr_untouched p u hl i0 s
    simp only [descr_untouched] at hu h ⊢
    exact ⟨hu.1.trans h.1, hu.2.1.trans h.2.1, hu.2.2.1.trans h.2.2.1,
      hu.2.2.2.1.trans h.2.2.2.1, hu.2.2.2.2.trans h.2.2.2.2⟩
  · intro h b hP
    exact hP

theorem header_loop_shape_untouched (p : Mem) (u : Uninit) (hl : Nat) (hd : Header_data)
    (hno : ∀ i < hl, ¬ shape_key_at p i) (fuel i : Nat) (s : State)
    (h : shape_untouched hd s.header_data) :
    shape_untouched hd (header_loop p u hl fuel i s).header_data := by
  refine header_loop_preserves (fun o => shape_untouched hd o) p u hl ?_ ?_ ?_ fuel i s h
  · intro i0 s _ _ h
    have hu := descr_key_shape_untouched p u hl i0 s
    simp only [shape_untouched] at hu h ⊢
    exact ⟨hu.1.trans h.1, hu.2.1.trans h.2.1, hu.2.2.trans h.2.2⟩
  · intro i0 s hi hk _
    exact absurd hk (hno i0 hi)
  · intro h b hP
    exact hP

set_option maxRecDepth 100000 in
/-- A key that is not `descr` and is taken for it: in the metadata
`{'dummy': 1, 'fortran_order': False, 'shape': (3,), }` the `d` of `dummy`
has a quote sign five characters later, and the next quoted text,
`fortran_order`, becomes the descriptor. -/
theorem read_header_dummy_key :
    descr_key_at (ofBytes blob_dummy_key) 2 ∧
    (read_header (ofBytes blob_dummy_key) Header_data.zero Uninit.zero).header_data.descr
      = bytesOf "fortran_order" := by
  refine ⟨by decide, by decide⟩

set_option maxRecDepth 100000 in
/-- C14, as stated, fails on metadata without the key `descr` and on
metadata without the key `shape`: both BLOBs have the signature, version
1.0 and a non-zero header length, `read_header` finds no such key in them,
and it returns the payload offset, not a negative code. -/
theorem C14_missing_key_counterexample :
    ((∀ i < header_length_field (ofBytes blob_no_descr), ¬ descr_key_at (ofBytes blob_no_descr) i) ∧
      0 ≤ (read_header (ofBytes blob_no_descr) Header_data.zero Uninit.zero).ret) ∧
    ((∀ i < header_length_field (ofBytes blob_no_shape), ¬ shape_key_at (ofBytes blob_no_shape) i) ∧
      0 ≤ (read_header (ofBytes blob_no_shape) Header_data.zero Uninit.zero).ret) := by
  decide

/-- C14, amended: for a BLOB with the signature, a supported version and a
non-zero header length `h`, `read_header` returns the payload offset
`10 + h` whatever the metadata text holds. When no index `i < h` of the text
holds a `d` with a quote sign at index `i + 5` (the test by which
`read_header` takes a key for `descr`, whatever the key is), the fields of
the descriptor are left as the caller had them; when no index `i < h` holds
an `s` with a quote sign at index `i + 5`, the fields of the shape are. -/
theorem C14_missing_key_accepted (p : Mem) (hd : Header_data) (u : Uninit)
    (h : has_signature p) (hv : 10 ≤ version_number p ∧ version_number p < 20)
    (h0 : header_length_field p ≠ 0) :
    (read_header p hd u).ret = 10 + header_length_field p ∧
    ((∀ i < header_length_field p, ¬ descr_key_at p i) →
      descr_untouched hd (read_header p hd u).header_data) ∧
    ((∀ i < header_length_field p, ¬ shape_key_at p i) →
      shape_untouched hd (read_header p hd u).header_data) := by
  rw [read_header_of_signature p hd u h]
  have e2 : ¬ (version_number p < 10 ∨ 20 ≤ version_number p) := by omega
  simp only [e2, h0, if_false, true_and]
  exact ⟨fun hno => header_loop_descr_untouched p u _ hd hno _ _ _ ⟨rfl, rfl, rfl, rfl, rfl⟩,
    fun hno => header_loop_shape_untouched p u _ hd hno _ _ _ ⟨rfl, rfl, rfl⟩⟩

set_option maxRecDepth 100000 in
/-- C14 (amended) at the metadata
`{'fortran_order': False, 'shape': (3,), }`, in which no `d` has a quote
sign five characters later: the payload offset is returned and the fields
of the descriptor are untouched. -/
theorem C14_missing_key_accepted_witness :
    (read_header (ofBytes blob_no_descr) Header_data.zero Uninit.zero).ret
      = 10 + header_length_field (ofBytes blob_no_descr) ∧
    descr_untouched Header_data.zero
      (read_header (ofBytes blob_no_descr) Header_data.zero Uninit.zero).header_data :=
  ⟨(C14_missing_key_accepted (ofBytes blob_no_descr) Header_data.zero Uninit.zero
      (by decide) (by decide) (by decide)).1,
    (C14_missing_key_accepted (ofBytes blob_no_descr) Header_data.zero Uninit.zero
      (by decide) (by decide) (by decide)).2.1 (by decide)⟩

/-! ## The loops do not depend on the log of the reads -/

theorem descr_loop_core (p : Mem) (n j : Nat) (is_open : Bool) (s t : Scan)
    (h : s.core = t.core) :
    (descr_loop p n j is_open s).core = (descr_loop p n j is_open t).core := by
  induction n generalizing j is_open s t with
  | zero => simpa [descr_loop] using h
  | succ n ih =>
    simp only [Scan.core, Prod.mk.injEq] at h
    unfold descr_loop
    simp only
    split
    · split
      · simp only [Scan.core, h.2, h.1]
      · exact ih _ _ _ _ (by simp only [Scan.core, h.2, h.1])
    · split
      · exact ih _ _ _ _ (by simp only [Scan.core, Scan.push, h.2, h.1])
      · exact ih _ _ _ _ (by simp only [Scan.core, h.2, h.1])

theorem shape_loop_core (p : Mem) (n j : Nat) (is_open : Bool) (s t : Scan)
    (h : s.core = t.core) :
    (shape_loop p n j is_open s).core = (shape_loop p n j is_open t).core := by
  induction n generalizing j is_open s t with
  | zero => simpa [shape_loop] using h
  | succ n ih =>
    simp only [Scan.core, Prod.mk.injEq] at h
    unfold shape_loop
    simp only
    split
    · exact ih _ _ _ _ (by simp only [Scan.core, h.2, h.1])
    · split
      · simp only [Scan.core, h.2, h.1]
      · split
        · exact ih _ _ _ _ (by simp only [Scan.core, Scan.push, h.2, h.1])
        · exact ih _ _ _ _ (by simp only [Scan.core, h.2, h.1])

theorem fortran_loop_fst (p : Mem) (n j : Nat) (r t : List Nat) :
    (fortran_loop p n j r).1 = (fortran_loop p n j t).1 := by
  induction n generalizing j r t with
  | zero => rfl
  | succ n ih =>
    unfold fortran_loop
    simp only
    split
    · rfl
    · split
      · rfl
      · exact ih _ _ _

theorem descr_key_core (p : Mem) (u : Uninit) (hl i0 : Nat) (s t : State)
    (h : s.core = t.core) :
    (descr_key p u hl i0 s).core = (descr_key p u hl i0 t).core := by
  simp only [State.core, Prod.mk.injEq] at h
  have hc := descr_loop_core p (hl - (i0 + 6)) (i0 + 6) false ⟨s.buffer, 0, s.reads⟩
    ⟨t.buffer, 0, t.reads⟩ (by simp only [Scan.core, h.2])
  simp only [Scan.core, Prod.mk.injEq] at hc
  simp only [descr_key, State.core, h.1, hc.1, hc.2]

theorem shape_key_core (p : Mem) (u : Uninit) (hl i0 : Nat) (s t : State)
    (h : s.core = t.core) :
    (shape_key p u hl i0 s).core = (shape_key p u hl i0 t).core := by
  simp only [State.core, Prod.mk.injEq] at h
  have hc := shape_loop_core p (hl - (i0 + 6)) (i0 + 6) false ⟨s.buffer, 0, s.reads⟩
    ⟨t.buffer, 0, t.reads⟩ (by simp only [Scan.core, h.2])
  simp only [Scan.core, Prod.mk.injEq] at hc
  simp only [shape_key, State.core, h.1, hc.1, hc.2]

/-- The header and the buffer that the main loop leaves depend on the header
and the buffer it starts from, not on the log. -/
theorem header_loop_core (p : Mem) (u : Uninit) (hl fuel i : Nat) (s t : State)
    (h : s.core = t.core) :
    (header_loop p u hl fuel i s).core = (header_loop p u hl fuel i t).core := by
  induction fuel generalizing i s t with
  | zero => simpa [header_loop] using h
  | succ fuel ih =>
    have h' := h
    simp only [State.core, Prod.mk.injEq] at h'
    unfold header_loop
    split
    · exact h
    · simp only
      split
      · split
        · exact ih _ _ _ (descr_key_core p u hl i _ _ (by simp only [State.core, h'.1, h'.2]))
        · exact ih _ _ _ (by simp only [State.core, h'.1, h'.2])
      · split
        · split
          · exact ih _ _ _ (shape_key_core p u hl i _ _ (by simp only [State.core, h'.1, h'.2]))
          · exact ih _ _ _ (by simp only [State.core, h'.1, h'.2])
        · split
          · split
            · rw [fortran_loop_fst p (hl - (i + 14)) (i + 14)
                ((start_hdr + i + 13) :: (start_hdr + i) :: s.reads)
                ((start_hdr + i + 13) :: (start_hdr + i) :: t.reads)]
              split
              · exact ih _ _ _ (by simp only [State.core, h'.1, h'.2])
              · exact ih _ _ _ (by simp only [State.core, h'.1, h'.2])
              · exact ih _ _ _ (by simp only [State.core, h'.1, h'.2])
            · exact ih _ _ _ (by simp only [State.core, h'.1, h'.2])
          · split
            · simp only [State.core, h'.1, h'.2]
            · exact ih _ _ _ (by simp only [State.core, h'.1, h'.2])

/-! ## The main loop, step by step -/

theorem scan_from_stop (p : Mem) (u : Uninit) (hl i : Nat) (s : State) (h : hl ≤ i) :
    scan_from p u hl i s = s := by
  have e : hl - i = 0 := by omega
  simp only [scan_from, e, header_loop]

/-- One iteration of the main loop, its fuel adjusted. -/
theorem scan_from_next (p : Mem) (u : Uninit) (hl i j : Nat) (s t : State) (hij : i < j)
    (h : s.core = t.core) :
    (header_loop p u hl (hl - i - 1) j s).core = (scan_from p u hl j t).core := by
  unfold scan_from
  rw [header_loop_fuel p u hl (hl - i - 1) (hl - j) j s (by omega) (le_refl _)]
  exact header_loop_core p u hl _ _ s t h

theorem scan_from_inert (p : Mem) (u : Uninit) (hl i : Nat) (s : State) (hi : i < hl)
    (h : inert_at p i) :
    (scan_from p u hl i s).core = (scan_from p u hl (i + 1) s).core := by
  obtain ⟨hb, hd, hs, hf⟩ := h
  have e : hl - i = (hl - i - 1) + 1 := by omega
  have hi2 : ¬ hl ≤ i := by omega
  conv_lhs => unfold scan_from; rw [e]; unfold header_loop
  simp only [hi2, if_false]
  by_cases cd : rd p (start_hdr + i) = 'd'.toNat
  · have hq := hd cd
    unfold is_quote at hq
    simp only [cd, if_true, hq, if_false]
    exact scan_from_next p u hl i (i + 1) _ s (by omega) rfl
  · by_cases cs : rd p (start_hdr + i) = 's'.toNat
    · have hq := hs cs
      unfold is_quote at hq
      simp only [cd, cs, if_true, if_false, hq]
      exact scan_from_next p u hl i (i + 1) _ s (by omega) rfl
    · by_cases cf : rd p (start_hdr + i) = 'f'.toNat
      · have hq := hf cf
        unfold is_quote at hq
        simp only [cd, cs, cf, if_true, if_false, hq]
        exact scan_from_next p u hl i (i + 1) _ s (by omega) rfl
      · simp only [cd, cs, cf, hb, if_false]
        exact scan_from_next p u hl i (i + 1) _ s (by omega) rfl

theorem scan_from_brace (p : Mem) (u : Uninit) (hl i : Nat) (s : State) (hi : i < hl)
    (h : rd p (start_hdr + i) = '}'.toNat) :
    (scan_from p u hl i s).core = s.core := by
  have e : hl - i = (hl - i - 1) + 1 := by omega
  have hi2 : ¬ hl ≤ i := by omega
  have c1 : ¬ ('}'.toNat = 'd'.toNat) := by decide
  have c2 : ¬ ('}'.toNat = 's'.toNat) := by decide
  have c3 : ¬ ('}'.toNat = 'f'.toNat) := by decide
  conv_lhs => unfold scan_from; rw [e]; unfold header_loop
  simp only [hi2, if_false, h, c1, c2, c3, if_true]
  rfl

theorem scan_from_descr (p : Mem) (u : Uninit) (hl i : Nat) (s : State) (hi : i < hl)
    (h : descr_key_at p i) :
    (scan_from p u hl i s).core = (scan_from p u hl (i + 7) (descr_key p u hl i s)).core := by
  obtain ⟨hc, hq⟩ := h
  unfold is_quote at hq
  have e : hl - i = (hl - i - 1) + 1 := by omega
  have hi2 : ¬ hl ≤ i := by omega
  conv_lhs => unfold scan_from; rw [e]; unfold header_loop
  simp only [hi2, if_false, hc, if_true, hq]
  exact scan_from_next p u hl i (i + 6 + 1) _ _ (by omega)
    (descr_key_core p u hl i _ _ rfl)

theorem scan_from_shape (p : Mem) (u : Uninit) (hl i : Nat) (s : State) (hi : i < hl)
    (h : shape_key_at p i) :
    (scan_from p u hl i s).core = (scan_from p u hl (i + 7) (shape_key p u hl i s)).core := by
  obtain ⟨hc, hq⟩ := h
  unfold is_quote at hq
  have e : hl - i = (hl - i - 1) + 1 := by omega
  have hi2 : ¬ hl ≤ i := by omega
  have c1 : ¬ ('s'.toNat = 'd'.toNat) := by decide
  conv_lhs => unfold scan_from; rw [e]; unfold header_loop
  simp only [hi2, if_false, hc, c1, if_true, hq]
  exact scan_from_next p u hl i (i + 6 + 1) _ _ (by omega)
    (shape_key_core p u hl i _ _ rfl)

theorem scan_from_fortran (p : Mem) (u : Uninit) (hl i : Nat) (s : State) (b : Bool)
    (hi : i < hl) (hc : rd p (start_hdr + i) = 'f'.toNat)
    (hq : is_quote (rd p (start_hdr + i + 13)))
    (hb : (fortran_loop p (hl - (i + 14)) (i + 14) []).1 = some b) :
    (scan_from p u hl i s).core =
      (scan_from p u hl (i + 14 + (if b then 4 else 5) + 1)
        { s with header_data := { s.header_data with fortran_order := b } }).core := by
  unfold is_quote at hq
  have e : hl - i = (hl - i - 1) + 1 := by omega
  have hi2 : ¬ hl ≤ i := by omega
  have c1 : ¬ ('f'.toNat = 'd'.toNat) := by decide
  have c2 : ¬ ('f'.toNat = 's'.toNat) := by decide
  have hb2 : (fortran_loop p (hl - (i + 14)) (i + 14)
      ((start_hdr + i + 13) :: (start_hdr + i) :: s.reads)).1 = some b := by
    rw [fortran_loop_fst p _ _ _ []]; exact hb
  conv_lhs => unfold scan_from; rw [e]; unfold header_loop
  simp only [hi2, if_false, hc, c1, c2, if_true, hq]
  cases b with
  | true =>
    simp only [hb2, if_true]
    exact scan_from_next p u hl i (i + 14 + 4 + 1) _ _ (by omega) rfl
  | false =>
    simp only [hb2, Bool.false_eq_true, if_false]
    exact scan_from_next p u hl i (i + 14 + 5 + 1) _ _ (by omega) rfl

/-- A run of inert indices is passed without effect. -/
theorem scan_from_inert_run (p : Mem) (u : Uninit) (hl i m : Nat) (s : State)
    (hm : i + m ≤ hl) (h : ∀ k < m, inert_at p (i + k)) :
    (scan_from p u hl i s).core = (scan_from p u hl (i + m) s).core := by
  induction m with
  | zero => rfl
  | succ m ih =>
    rw [ih (by omega) (fun k hk => h k (by omega))]
    exact scan_from_inert p u hl (i + m) s (by omega) (h m (by omega))

/-! ## The inner scans on a given text -/

theorem text_at_cons (p : Mem) (i c : Nat) (t : List Nat) :
    text_at p i (c :: t) ↔ rd p (start_hdr + i) = c ∧ text_at p (i + 1) t := by
  constructor
  · intro h
    refine ⟨by simpa using h 0 (by simp), ?_⟩
    intro k hk
    have := h (k + 1) (by simpa using hk)
    simp only [List.getD_cons_succ] at this
    rw [← this]
    congr 1
    omega
  · rintro ⟨h0, ht⟩ k hk
    cases k with
    | zero => simpa using h0
    | succ k =>
      have := ht k (by simpa using hk)
      simp only [List.getD_cons_succ]
      rw [← this]
      congr 1
      omega

theorem text_at_append (p : Mem) (i : Nat) (a b : List Nat) :
    text_at p i (a ++ b) ↔ text_at p i a ∧ text_at p (i + a.length) b := by
  induction a generalizing i with
  | nil => simp [text_at]
  | cons c t ih =>
    simp only [List.cons_append, text_at_cons, ih, List.length_cons, and_assoc]
    have e : i + 1 + t.length = i + (t.length + 1) := by omega
    rw [e]

theorem text_at_get (p : Mem) (i : Nat) (seg : List Nat) (h : text_at p i seg) (k : Nat)
    (hk : k < seg.length) : rd p (start_hdr + (i + k)) = seg.getD k 0 := by
  rw [← h k hk]
  congr 1
  omega

theorem write_at_counter (b : Nat → Nat) (c : Nat) (D : List Nat) (k : Nat) :
    write_at b c D k = if c ≤ k ∧ k < c + D.length then D.getD (k - c) 0 else b k := by
  induction D generalizing b c with
  | nil =>
    have h : ¬ (c ≤ k ∧ k < c + 0) := by omega
    simp only [write_at, List.length_nil, h, if_false]
  | cons x xs ih =>
    simp only [write_at, ih, List.length_cons]
    by_cases h1 : c + 1 ≤ k ∧ k < c + 1 + xs.length
    · have h2 : c ≤ k ∧ k < c + (xs.length + 1) := by omega
      have e : k - c = (k - (c + 1)) + 1 := by omega
      simp only [h1, h2, and_self, if_true, e, List.getD_cons_succ]
    · by_cases h3 : k = c
      · subst h3
        simp [h1]
      · have h2 : ¬ (c ≤ k ∧ k < c + (xs.length + 1)) := by omega
        simp only [h1, h2, if_false, Function.update, h3, dite_false]

theorem buffer_head_write_at (b : Nat → Nat) (D : List Nat) :
    buffer_head (write_at b 0 D) D.length = D := by
  apply List.ext_getElem
  · simp [buffer_head]
  · intro k h1 h2
    simp only [buffer_head, List.getElem_map, List.getElem_range, write_at_counter]
    have h3 : 0 ≤ k ∧ k < 0 + D.length := by omega
    simp only [h3, and_self, if_true, Nat.sub_zero]
    simp [List.getD_eq_getElem?_getD, List.getElem?_eq_getElem h2]

theorem buffer_head_succ (b : Nat → Nat) (n : Nat) :
    buffer_head b (n + 1) = buffer_head b n ++ [b n] := by
  simp [buffer_head, List.range_succ]

theorem buffer_head_congr (b c : Nat → Nat) (n : Nat) (h : ∀ k < n, b k = c k) :
    buffer_head b n = buffer_head c n := by
  apply List.ext_getElem
  · simp [buffer_head]
  · intro k h1 h2
    simp only [buffer_head, List.length_map, List.length_range] at h1
    simp [buffer_head, h k h1]

theorem descr_loop_skip_closed (p : Mem) (pre : List Nat) (n j : Nat) (s : Scan)
    (hpre : ∀ c ∈ pre, ¬ is_quote c) (ht : text_at p j pre) :
    (descr_loop p (n + pre.length) j false s).core
      = (descr_loop p n (j + pre.length) false s).core := by
  induction pre generalizing j s with
  | nil => rfl
  | cons c t ih =>
    rw [text_at_cons] at ht
    have hc : ¬ is_quote c := hpre c (List.mem_cons_self _ _)
    unfold is_quote at hc
    have e : n + (c :: t).length = (n + t.length) + 1 := by simp; omega
    have e2 : j + (c :: t).length = j + 1 + t.length := by simp; omega
    rw [e, e2]
    conv_lhs => unfold descr_loop
    simp only [ht.1, hc, if_false, Bool.false_eq_true]
    rw [← ih (j + 1) s (fun d hd => hpre d (List.mem_cons_of_mem _ hd)) ht.2]
    exact descr_loop_core p _ _ _ _ _ rfl

theorem descr_loop_fill (p : Mem) (D : List Nat) (n j : Nat) (s : Scan)
    (hD : ∀ c ∈ D, ¬ is_quote c) (ht : text_at p j D) :
    (descr_loop p (n + D.length) j true s).core
      = (descr_loop p n (j + D.length) true
          ⟨write_at s.buffer s.counter D, s.counter + D.length, s.reads⟩).core := by
  induction D generalizing j s with
  | nil => rfl
  | cons c t ih =>
    rw [text_at_cons] at ht
    have hc : ¬ is_quote c := hD c (List.mem_cons_self _ _)
    unfold is_quote at hc
    have e : n + (c :: t).length = (n + t.length) + 1 := by simp; omega
    have e2 : j + (c :: t).length = j + 1 + t.length := by simp; omega
    have e3 : s.counter + (c :: t).length = s.counter + 1 + t.length := by simp; omega
    rw [e, e2, e3]
    conv_lhs => unfold descr_loop
    simp only [ht.1, hc, if_false, if_true]
    have := ih (j + 1) (s.push c) (fun d hd => hD d (List.mem_cons_of_mem _ hd)) ht.2
    simp only [Scan.push] at this
    rw [write_at, ← descr_loop_core p n (j + 1 + t.length) true _ _ rfl, ← this]
    exact descr_loop_core p _ _ _ _ _ rfl

/-- The scan of the `descr` key over `pre`, a quote sign, `D`, a quote sign:
`D` is moved to the start of `buffer`. -/
theorem descr_loop_quoted (p : Mem) (pre D : List Nat) (q1 q2 n j : Nat) (b : Nat → Nat)
    (r : List Nat) (hpre : ∀ c ∈ pre, ¬ is_quote c) (hD : ∀ c ∈ D, ¬ is_quote c)
    (hq1 : is_quote q1) (hq2 : is_quote q2)
    (ht : text_at p j (pre ++ q1 :: (D ++ [q2])))
    (hn : pre.length + D.length + 2 ≤ n) :
    (descr_loop p n j false ⟨b, 0, r⟩).core = (write_at b 0 D, D.length) := by
  rw [text_at_append, text_at_cons, text_at_append, text_at_cons] at ht
  obtain ⟨h1, h2, h3, h4, _⟩ := ht
  unfold is_quote at hq1 hq2
  obtain ⟨m, rfl⟩ : ∃ m, n = (((m + 1) + D.length) + 1) + pre.length :=
    ⟨n - (pre.length + D.length + 2), by omega⟩
  rw [descr_loop_skip_closed p pre _ j _ hpre h1]
  conv_lhs => unfold descr_loop
  simp only [h2, hq1, if_true, Bool.false_eq_true, if_false]
  rw [descr_loop_fill p D _ _ _ hD h3]
  conv_lhs => unfold descr_loop
  simp only [h4, hq2, if_true, Scan.core, Nat.zero_add]

theorem shape_loop_skip_closed (p : Mem) (pre : List Nat) (n j : Nat) (s : Scan)
    (hpre : ∀ c ∈ pre, c ≠ '('.toNat ∧ c ≠ ')'.toNat) (ht : text_at p j pre) :
    (shape_loop p (n + pre.length) j false s).core
      = (shape_loop p n (j + pre.length) false s).core := by
  induction pre generalizing j s with
  | nil => rfl
  | cons c t ih =>
    rw [text_at_cons] at ht
    have hc := hpre c (List.mem_cons_self _ _)
    have e : n + (c :: t).length = (n + t.length) + 1 := by simp; omega
    have e2 : j + (c :: t).length = j + 1 + t.length := by simp; omega
    rw [e, e2]
    conv_lhs => unfold shape_loop
    simp only [ht.1, hc.1, hc.2, if_false, Bool.false_eq_true]
    rw [← ih (j + 1) s (fun d hd => hpre d (List.mem_cons_of_mem _ hd)) ht.2]
    exact shape_loop_core p _ _ _ _ _ rfl

theorem shape_loop_fill (p : Mem) (S : List Nat) (n j : Nat) (s : Scan)
    (hS : ∀ c ∈ S, c ≠ '('.toNat ∧ c ≠ ')'.toNat) (ht : text_at p j S) :
    (shape_loop p (n + S.length) j true s).core
      = (shape_loop p n (j + S.length) true
          ⟨write_at s.buffer s.counter S, s.counter + S.length, s.reads⟩).core := by
  induction S generalizing j s with
  | nil => rfl
  | cons c t ih =>
    rw [text_at_cons] at ht
    have hc := hS c (List.mem_cons_self _ _)
    have e : n + (c :: t).length = (n + t.length) + 1 := by simp; omega
    have e2 : j + (c :: t).length = j + 1 + t.length := by simp; omega
    have e3 : s.counter + (c :: t).length = s.counter + 1 + t.length := by simp; omega
    rw [e, e2, e3]
    conv_lhs => unfold shape_loop
    simp only [ht.1, hc.1, hc.2, if_false, if_true]
    have := ih (j + 1) (s.push c) (fun d hd => hS d (List.mem_cons_of_mem _ hd)) ht.2
    simp only [Scan.push] at this
    rw [write_at, ← shape_loop_core p n (j + 1 + t.length) true _ _ rfl, ← this]
    exact shape_loop_core p _ _ _ _ _ rfl

/-- The scan of the `shape` key over `pre`, `(`, `S`, `)`: `S` is moved to
the start of `buffer`. -/
theorem shape_loop_parens (p : Mem) (pre S : List Nat) (n j : Nat) (b : Nat → Nat)
    (r : List Nat) (hpre : ∀ c ∈ pre, c ≠ '('.toNat ∧ c ≠ ')'.toNat)
    (hS : ∀ c ∈ S, c ≠ '('.toNat ∧ c ≠ ')'.toNat)
    (ht : text_at p j (pre ++ '('.toNat :: (S ++ [')'.toNat])))
    (hn : pre.length + S.length + 2 ≤ n) :
    (shape_loop p n j false ⟨b, 0, r⟩).core = (write_at b 0 S, S.length) := by
  rw [text_at_append, text_at_cons, text_at_append, text_at_cons] at ht
  obtain ⟨h1, h2, h3, h4, _⟩ := ht
  obtain ⟨m, rfl⟩ : ∃ m, n = (((m + 1) + S.length) + 1) + pre.length :=
    ⟨n - (pre.length + S.length + 2), by omega⟩
  have c1 : ¬ (')'.toNat = '('.toNat) := by decide
  rw [shape_loop_skip_closed p pre _ j _ hpre h1]
  conv_lhs => unfold shape_loop
  simp only [h2, if_true]
  rw [shape_loop_fill p S _ _ _ hS h3]
  conv_lhs => unfold shape_loop
  simp only [h4, c1, if_false, if_true, Scan.core, Nat.zero_add]

/-- The scan of the `fortran_order` key over `pre` and a `T` or an `F`. -/
theorem fortran_loop_found (p : Mem) (pre : List Nat) (c n j : Nat) (r : List Nat)
    (hpre : ∀ d ∈ pre, d ≠ 'T'.toNat ∧ d ≠ 'F'.toNat)
    (hc : c = 'T'.toNat ∨ c = 'F'.toNat)
    (ht : text_at p j (pre ++ [c])) (hn : pre.length + 1 ≤ n) :
    (fortran_loop p n j r).1 = some (decide (c = 'T'.toNat)) := by
  induction pre generalizing j n r with
  | nil =>
    rw [List.nil_append, text_at_cons] at ht
    obtain ⟨m, rfl⟩ : ∃ m, n = m + 1 := ⟨n - 1, by simp at hn; omega⟩
    unfold fortran_loop
    rcases hc with rfl | rfl
    · simp only [ht.1, if_true, decide_True]
    · have c1 : ¬ ('F'.toNat = 'T'.toNat) := by decide
      simp only [ht.1, c1, if_false, if_true, decide_False]
  | cons d t ih =>
    rw [List.cons_append, text_at_cons] at ht
    have hd := hpre d (List.mem_cons_self _ _)
    obtain ⟨m, rfl⟩ : ∃ m, n = m + 1 := ⟨n - 1, by simp at hn; omega⟩
    unfold fortran_loop
    simp only [ht.1, hd.1, hd.2, if_false]
    exact ih m (j + 1) _ (fun x hx => hpre x (List.mem_cons_of_mem _ hx)) ht.2
      (by simp at hn; omega)

/-! ## The main loop on a given text -/

theorem inert_of_quiet (p : Mem) (i : Nat) (h : quiet (rd p (start_hdr + i))) : inert_at p i :=
  ⟨h.2.2.2, fun c => absurd c h.1, fun c => absurd c h.2.1, fun c => absurd c h.2.2.1⟩

theorem getD_mem (l : List Nat) (k : Nat) (hk : k < l.length) : l.getD k 0 ∈ l := by
  rw [List.getD_eq_getElem?_getD, List.getElem?_eq_getElem hk]
  exact List.getElem_mem hk

/-- A text of quiet characters is passed without effect. -/
theorem scan_quiet_text (p : Mem) (u : Uninit) (hl i : Nat) (seg : List Nat) (s : State)
    (ht : text_at p i seg) (hq : ∀ c ∈ seg, quiet c) (hm : i + seg.length ≤ hl) :
    (scan_from p u hl i s).core = (scan_from p u hl (i + seg.length) s).core := by
  apply scan_from_inert_run p u hl i seg.length s hm
  intro k hk
  apply inert_of_quiet
  rw [text_at_get p i seg ht k hk]
  exact hq _ (getD_mem seg k hk)

theorem text_at_drop (p : Mem) (i k : Nat) (l : List Nat) (h : text_at p i l)
    (hk : k ≤ l.length) : text_at p (i + k) (l.drop k) := by
  have e : l = l.take k ++ l.drop k := (List.take_append_drop k l).symm
  rw [e, text_at_append] at h
  have e2 : (l.take k).length = k := by simp; omega
  rw [e2] at h
  exact h.2

theorem text_at_char (p : Mem) (i k : Nat) (l : List Nat) (h : text_at p i l)
    (hk : k < l.length) : rd p (start_hdr + (i + k)) = l.getD k 0 :=
  text_at_get p i l h k hk

theorem descr_key_eval (p : Mem) (u : Uninit) (hl i0 : Nat) (s : State) (B : Nat → Nat)
    (k : Nat)
    (h : (descr_loop p (hl - (i0 + 6)) (i0 + 6) false ⟨s.buffer, 0, s.reads⟩).core = (B, k)) :
    (descr_key p u hl i0 s).core =
      ({ s.header_data with
          descr := buffer_head B k
          descr_len := k
          littleEndian :=
            (buffer_head B k ++ 0 :: u.desc_tail i0).getD 0 0 = '<'.toNat ∨
            (buffer_head B k ++ 0 :: u.desc_tail i0).getD 0 0 = '|'.toNat
          type := (buffer_head B k ++ 0 :: u.desc_tail i0).getD 1 0
          wordsize_in_bytes :=
            toUInt32 (atoi ((buffer_head B k ++ 0 :: u.desc_tail i0).drop 2)) }, B) := by
  simp only [Scan.core, Prod.mk.injEq] at h
  simp only [descr_key, State.core, h.1, h.2]

theorem shape_key_eval (p : Mem) (u : Uninit) (hl i0 : Nat) (s : State) (B : Nat → Nat)
    (k : Nat)
    (h : (shape_loop p (hl - (i0 + 6)) (i0 + 6) false ⟨s.buffer, 0, s.reads⟩).core = (B, k)) :
    (shape_key p u hl i0 s).core =
      ({ s.header_data with
          shape := (strtok_tokens ','.toNat
            (cstr (buffer_head B (k + 1) ++ u.tuple_tail i0)) []).map atoi
          shape_len := ((strtok_tokens ','.toNat
            (cstr (buffer_head B (k + 1) ++ u.tuple_tail i0)) []).map atoi).length
          size := shape_size ((strtok_tokens ','.toNat
            (cstr (buffer_head B (k + 1) ++ u.tuple_tail i0)) []).map atoi) }, B) := by
  simp only [Scan.core, Prod.mk.injEq] at h
  simp only [shape_key, State.core, h.1, h.2]

theorem text_at_split (p : Mem) (i : Nat) (a b : List Nat) (h : text_at p i (a ++ b)) :
    text_at p i a ∧ text_at p (i + a.length) b := (text_at_append p i a b).1 h

theorem scan_from_index (p : Mem) (u : Uninit) (hl i j : Nat) (s : State) (h : i = j) :
    scan_from p u hl i s = scan_from p u hl j s := by rw [h]

theorem byte_behind_eq (u : Uninit) (D S : List Nat) :
    write_at u.buffer 0 D S.length = byte_behind u D S := by
  rw [write_at_counter]
  unfold byte_behind
  by_cases h : S.length < D.length
  · have h2 : 0 ≤ S.length ∧ S.length < 0 + D.length := by omega
    simp only [h, h2, and_self, if_true, Nat.sub_zero]
  · have h2 : ¬ (0 ≤ S.length ∧ S.length < 0 + D.length) := by omega
    simp only [h, h2, if_false]

theorem buffer_head_write_succ (b : Nat → Nat) (S : List Nat) (x : Nat) (h : b S.length = x) :
    buffer_head (write_at b 0 S) (S.length + 1) = S ++ [x] := by
  rw [buffer_head_succ, buffer_head_write_at, write_at_counter]
  have h2 : ¬ (0 ≤ S.length ∧ S.length < 0 + S.length) := by omega
  simp only [h2, if_false, h]

theorem text_at_index (p : Mem) (i j : Nat) (l : List Nat) (h : text_at p i l) (e : i = j) :
    text_at p j l := e ▸ h

theorem rd_index (p : Mem) (x y c : Nat) (h : rd p x = c) (e : x = y) : rd p y = c := e ▸ h

/-- `descr_loop_quoted`, the text given piece by piece. -/
theorem descr_loop_pieces (p : Mem) (pre D : List Nat) (q1 q2 n j j1 j2 j3 : Nat)
    (b : Nat → Nat) (r : List Nat)
    (hpre : ∀ c ∈ pre, ¬ is_quote c) (hD : ∀ c ∈ D, ¬ is_quote c)
    (hq1 : is_quote q1) (hq2 : is_quote q2)
    (h1 : text_at p j pre) (e1 : j1 = j + pre.length) (h2 : rd p (start_hdr + j1) = q1)
    (e2 : j2 = j1 + 1) (h3 : text_at p j2 D) (e3 : j3 = j2 + D.length)
    (h4 : rd p (start_hdr + j3) = q2) (hn : pre.length + D.length + 2 ≤ n) :
    (descr_loop p n j false ⟨b, 0, r⟩).core = (write_at b 0 D, D.length) := by
  subst e1 e2 e3
  apply descr_loop_quoted p pre D q1 q2 n j b r hpre hD hq1 hq2 _ hn
  rw [text_at_append, text_at_cons, text_at_append, text_at_cons]
  exact ⟨h1, h2, h3, h4, fun k hk => absurd hk (by simp)⟩

/-- `shape_loop_parens`, the text given piece by piece. -/
theorem shape_loop_pieces (p : Mem) (pre S : List Nat) (n j j1 j2 j3 : Nat)
    (b : Nat → Nat) (r : List Nat)
    (hpre : ∀ c ∈ pre, c ≠ '('.toNat ∧ c ≠ ')'.toNat)
    (hS : ∀ c ∈ S, c ≠ '('.toNat ∧ c ≠ ')'.toNat)
    (h1 : text_at p j pre) (e1 : j1 = j + pre.length)
    (h2 : rd p (start_hdr + j1) = '('.toNat)
    (e2 : j2 = j1 + 1) (h3 : text_at p j2 S) (e3 : j3 = j2 + S.length)
    (h4 : rd p (start_hdr + j3) = ')'.toNat) (hn : pre.length + S.length + 2 ≤ n) :
    (shape_loop p n j false ⟨b, 0, r⟩).core = (write_at b 0 S, S.length) := by
  subst e1 e2 e3
  apply shape_loop_parens p pre S n j b r hpre hS _ hn
  rw [text_at_append, text_at_cons, text_at_append, text_at_cons]
  exact ⟨h1, h2, h3, h4, fun k hk => absurd hk (by simp)⟩

/-- The main loop over the pair `'descr': 'D', ` that starts at index `a`. -/
theorem scan_descr_pair (p : Mem) (u : Uninit) (hl a : Nat) (s : State) (D : List Nat)
    (tk : text_at p a KEY_DESCR) (tD : text_at p (a + 10) D)
    (te : text_at p (a + 10 + D.length) END_QUOTED)
    (hDq : ∀ c ∈ D, ¬ is_quote c) (hDi : ∀ k < D.length, inert_at p (a + 10 + k))
    (hhl : a + 13 + D.length ≤ hl) :
    (scan_from p u hl a s).core
      = (scan_from p u hl (a + 13 + D.length) (descr_key p u hl (a + 1) s)).core ∧
    (descr_key p u hl (a + 1) s).core =
      ({ s.header_data with
          descr := D
          descr_len := D.length
          littleEndian :=
            (D ++ 0 :: u.desc_tail (a + 1)).getD 0 0 = '<'.toNat ∨
            (D ++ 0 :: u.desc_tail (a + 1)).getD 0 0 = '|'.toNat
          type := (D ++ 0 :: u.desc_tail (a + 1)).getD 1 0
          wordsize_in_bytes := toUInt32 (atoi ((D ++ 0 :: u.desc_tail (a + 1)).drop 2)) },
        write_at s.buffer 0 D) := by
  have c0 := text_at_char p a 0 KEY_DESCR tk (by decide)
  have c1 := text_at_char p a 1 KEY_DESCR tk (by decide)
  have c6 := text_at_char p a 6 KEY_DESCR tk (by decide)
  have c9 := text_at_char p a 9 KEY_DESCR tk (by decide)
  have e0 := text_at_char p (a + 10 + D.length) 0 END_QUOTED te (by decide)
  have t7 := text_at_drop p a 7 KEY_DESCR tk (by decide)
  have t8 := text_at_drop p a 8 KEY_DESCR tk (by decide)
  constructor
  · -- the quote that opens the key
    rw [scan_from_inert p u hl a s (by omega)
      (inert_of_quiet p a (by rw [rd_index p _ (start_hdr + a) _ c0 (by omega)]; decide))]
    -- the key
    rw [scan_from_descr p u hl (a + 1) s (by omega)
      ⟨c1.trans (by decide), by rw [rd_index p _ (start_hdr + (a + 1) + 5) _ c6 (by omega)]; decide⟩]
    -- the rest of the pair
    rw [scan_from_index p u hl (a + 1 + 7) (a + 8) _ (by omega)]
    rw [scan_quiet_text p u hl (a + 8) (KEY_DESCR.drop 8) _ t8 (by decide) (by
      have : (KEY_DESCR.drop 8).length = 2 := by decide
      omega)]
    rw [scan_from_index p u hl (a + 8 + (KEY_DESCR.drop 8).length) (a + 10) _ (by
      have : (KEY_DESCR.drop 8).length = 2 := by decide
      omega)]
    rw [scan_from_inert_run p u hl (a + 10) D.length _ (by omega) hDi]
    rw [scan_quiet_text p u hl (a + 10 + D.length) END_QUOTED _ te (by decide) (by
      have : END_QUOTED.length = 3 := by decide
      omega)]
    rw [scan_from_index p u hl (a + 10 + D.length + END_QUOTED.length) (a + 13 + D.length) _ (by
      have : END_QUOTED.length = 3 := by decide
      omega)]
  · have hpre : text_at p (a + 1 + 6) [58, 32] := by
      have h := text_at_index p _ (a + 1 + 6) _ t7 (by omega)
      have e : KEY_DESCR.drop 7 = [58, 32] ++ [39] := by decide
      rw [e] at h
      exact (text_at_split p _ _ _ h).1
    have hloop := descr_loop_pieces p [58, 32] D 39 39 (hl - (a + 1 + 6)) (a + 1 + 6)
      (a + 9) (a + 10) (a + 10 + D.length) s.buffer s.reads (by decide) hDq (by decide)
      (by decide) hpre (by show a + 9 = a + 1 + 6 + 2; omega) (c9.trans (by decide)) (by omega)
      tD rfl
      (by rw [rd_index p _ (start_hdr + (a + 10 + D.length)) _ e0 (by omega)]; decide)
      (by show 2 + D.length + 2 ≤ hl - (a + 1 + 6); omega)
    rw [descr_key_eval p u hl (a + 1) s _ _ hloop, buffer_head_write_at]

/-- The main loop over the pair `'fortran_order': F, ` that starts at index `b`. -/
theorem scan_fortran_pair (p : Mem) (u : Uninit) (hl b : Nat) (s : State) (F : Bool)
    (tk : text_at p b KEY_FORTRAN) (tv : text_at p (b + 17) (bool_text F))
    (ts : text_at p (b + 17 + (bool_text F).length) SEPARATOR)
    (hhl : b + 19 + (bool_text F).length ≤ hl) :
    (scan_from p u hl b s).core
      = (scan_from p u hl (b + 19 + (bool_text F).length)
          { s with header_data := { s.header_data with fortran_order := F } }).core := by
  have c0 := text_at_char p b 0 KEY_FORTRAN tk (by decide)
  have c1 := text_at_char p b 1 KEY_FORTRAN tk (by decide)
  have c14 := text_at_char p b 14 KEY_FORTRAN tk (by decide)
  have t15 := text_at_drop p b 15 KEY_FORTRAN tk (by decide)
  have hlen : (bool_text F).length = if F then 4 else 5 := by cases F <;> decide
  have hpos : 0 < (bool_text F).length := by cases F <;> decide
  have v0 := text_at_char p (b + 17) 0 (bool_text F) tv hpos
  have hv0 : (bool_text F).getD 0 0 = 'T'.toNat ∨ (bool_text F).getD 0 0 = 'F'.toNat := by
    cases F <;> decide
  have hdec : decide ((bool_text F).getD 0 0 = 'T'.toNat) = F := by cases F <;> decide
  have hfound := fortran_loop_found p [58, 32] ((bool_text F).getD 0 0) (hl - (b + 1 + 14))
    (b + 1 + 14) [] (by decide) hv0
    ((text_at_append p (b + 1 + 14) [58, 32] [(bool_text F).getD 0 0]).2
      ⟨text_at_index p _ (b + 1 + 14) _ t15 (by omega),
        (text_at_cons p _ _ []).2
          ⟨rd_index p _ _ _ v0
            (by show start_hdr + (b + 17 + 0) = start_hdr + (b + 1 + 14 + 2); omega),
          fun k hk => absurd hk (by simp)⟩⟩)
    (by show 2 + 1 ≤ hl - (b + 1 + 14); omega)
  rw [hdec] at hfound
  -- the quote that opens the key
  rw [scan_from_inert p u hl b s (by omega)
    (inert_of_quiet p b (by rw [rd_index p _ (start_hdr + b) _ c0 (by omega)]; decide))]
  -- the key and its value
  rw [scan_from_fortran p u hl (b + 1) s F (by omega) (c1.trans (by decide))
    (by rw [rd_index p _ (start_hdr + (b + 1) + 13) _ c14 (by omega)]; decide) hfound]
  -- the last letter of the value, and the separator
  have tlast := text_at_drop p (b + 17) ((bool_text F).length - 1) (bool_text F) tv (by omega)
  have hlast : (bool_text F).drop ((bool_text F).length - 1) = [101] := by cases F <;> decide
  rw [hlast] at tlast
  rw [scan_from_index p u hl (b + 1 + 14 + (if F = true then 4 else 5) + 1)
    (b + 17 + ((bool_text F).length - 1)) _ (by rw [hlen]; cases F <;> simp)]
  rw [scan_quiet_text p u hl _ [101] _ tlast (by decide) (by
    show b + 17 + ((bool_text F).length - 1) + 1 ≤ hl; omega)]
  rw [scan_from_index p u hl (b + 17 + ((bool_text F).length - 1) + [101].length)
    (b + 17 + (bool_text F).length) _ (by show _ + 1 = _; omega)]
  rw [scan_quiet_text p u hl _ SEPARATOR _ ts (by decide) (by
    have : SEPARATOR.length = 2 := by decide
    omega)]
  rw [scan_from_index p u hl (b + 17 + (bool_text F).length + SEPARATOR.length)
    (b + 19 + (bool_text F).length) _ (by
      have : SEPARATOR.length = 2 := by decide
      omega)]

/-- The main loop over the pair `'shape': (S), ` that starts at index `c`. -/
theorem scan_shape_pair (p : Mem) (u : Uninit) (hl c : Nat) (s : State) (S : List Nat)
    (tk : text_at p c KEY_SHAPE) (tS : text_at p (c + 10) S)
    (te : text_at p (c + 10 + S.length) END_TUPLE)
    (hSq : ∀ x ∈ S, quiet x) (hSp : ∀ x ∈ S, x ≠ '('.toNat ∧ x ≠ ')'.toNat)
    (hhl : c + 13 + S.length ≤ hl) :
    (scan_from p u hl c s).core
      = (scan_from p u hl (c + 13 + S.length) (shape_key p u hl (c + 1) s)).core ∧
    (shape_key p u hl (c + 1) s).core =
      ({ s.header_data with
          shape := (strtok_tokens ','.toNat
            (cstr ((S ++ [s.buffer S.length]) ++ u.tuple_tail (c + 1))) []).map atoi
          shape_len := ((strtok_tokens ','.toNat
            (cstr ((S ++ [s.buffer S.length]) ++ u.tuple_tail (c + 1))) []).map atoi).length
          size := shape_size ((strtok_tokens ','.toNat
            (cstr ((S ++ [s.buffer S.length]) ++ u.tuple_tail (c + 1))) []).map atoi) },
        write_at s.buffer 0 S) := by
  have c0 := text_at_char p c 0 KEY_SHAPE tk (by decide)
  have c1 := text_at_char p c 1 KEY_SHAPE tk (by decide)
  have c6 := text_at_char p c 6 KEY_SHAPE tk (by decide)
  have c9 := text_at_char p c 9 KEY_SHAPE tk (by decide)
  have e0 := text_at_char p (c + 10 + S.length) 0 END_TUPLE te (by decide)
  have t7 := text_at_drop p c 7 KEY_SHAPE tk (by decide)
  have t8 := text_at_drop p c 8 KEY_SHAPE tk (by decide)
  constructor
  · rw [scan_from_inert p u hl c s (by omega)
      (inert_of_quiet p c (by rw [rd_index p _ (start_hdr + c) _ c0 (by omega)]; decide))]
    rw [scan_from_shape p u hl (c + 1) s (by omega)
      ⟨c1.trans (by decide), by rw [rd_index p _ (start_hdr + (c + 1) + 5) _ c6 (by omega)]; decide⟩]
    rw [scan_from_index p u hl (c + 1 + 7) (c + 8) _ (by omega)]
    rw [scan_quiet_text p u hl (c + 8) (KEY_SHAPE.drop 8) _ t8 (by decide) (by
      have : (KEY_SHAPE.drop 8).length = 2 := by decide
      omega)]
    rw [scan_from_index p u hl (c + 8 + (KEY_SHAPE.drop 8).length) (c + 10) _ (by
      have : (KEY_SHAPE.drop 8).length = 2 := by decide
      omega)]
    rw [scan_quiet_text p u hl (c + 10) S _ tS hSq (by omega)]
    rw [scan_quiet_text p u hl (c + 10 + S.length) END_TUPLE _ te (by decide) (by
      have : END_TUPLE.length = 3 := by decide
      omega)]
    rw [scan_from_index p u hl (c + 10 + S.length + END_TUPLE.length) (c + 13 + S.length) _ (by
      have : END_TUPLE.length = 3 := by decide
      omega)]
  · have hpre : text_at p (c + 1 + 6) [58, 32] := by
      have h := text_at_index p _ (c + 1 + 6) _ t7 (by omega)
      have e : KEY_SHAPE.drop 7 = [58, 32] ++ [40] := by decide
      rw [e] at h
      exact (text_at_split p _ _ _ h).1
    have hloop := shape_loop_pieces p [58, 32] S (hl - (c + 1 + 6)) (c + 1 + 6)
      (c + 9) (c + 10) (c + 10 + S.length) s.buffer s.reads (by decide) hSp
      hpre (by show c + 9 = c + 1 + 6 + 2; omega) (c9.trans (by decide)) (by omega)
      tS rfl
      (by rw [rd_index p _ (start_hdr + (c + 10 + S.length)) _ e0 (by omega)]; decide)
      (by show 2 + S.length + 2 ≤ hl - (c + 1 + 6); omega)
    rw [shape_key_eval p u hl (c + 1) s _ _ hloop,
      buffer_head_write_succ s.buffer S (s.buffer S.length) rfl]

/-- The main loop of `read_header` on the text `dict_text`: the header that
it leaves. The characters of `g0` .. `g3` are quiet, the descriptor holds
no quote sign and is passed without effect, the tuple text is quiet and
without parentheses. -/
theorem scan_dict (p : Mem) (u : Uninit) (hl : Nat) (hd : Header_data) (r : List Nat)
    (g0 D g1 : List Nat) (F : Bool) (g2 S g3 : List Nat)
    (ht : text_at p 0 (dict_text g0 D g1 F g2 S g3))
    (hhl : (dict_text g0 D g1 F g2 S g3).length ≤ hl)
    (hg0 : ∀ c ∈ g0, quiet c) (hg1 : ∀ c ∈ g1, quiet c) (hg2 : ∀ c ∈ g2, quiet c)
    (hg3 : ∀ c ∈ g3, quiet c)
    (hDq : ∀ c ∈ D, ¬ is_quote c) (hDi : ∀ k < D.length, inert_at p (g0.length + 10 + k))
    (hSq : ∀ x ∈ S, quiet x) (hSp : ∀ x ∈ S, x ≠ '('.toNat ∧ x ≠ ')'.toNat) :
    (scan_from p u hl 0 ⟨hd, u.buffer, r⟩).header_data
      = dict_header u (g0.length + 1) (shape_index g0 D g1 F g2) D F S := by
  have lk : KEY_DESCR.length = 10 := by decide
  have le : END_QUOTED.length = 3 := by decide
  have lf : KEY_FORTRAN.length = 17 := by decide
  have ls : SEPARATOR.length = 2 := by decide
  have lh : KEY_SHAPE.length = 10 := by decide
  have lt : END_TUPLE.length = 3 := by decide
  have lb : BRACE.length = 1 := by decide
  simp only [dict_text, List.length_append, lk, le, lf, ls, lh, lt, lb] at hhl
  unfold dict_text at ht
  obtain ⟨t0, ht⟩ := text_at_split p _ _ _ ht
  obtain ⟨t1, ht⟩ := text_at_split p _ _ _ ht
  obtain ⟨t2, ht⟩ := text_at_split p _ _ _ ht
  obtain ⟨t3, ht⟩ := text_at_split p _ _ _ ht
  obtain ⟨t4, ht⟩ := text_at_split p _ _ _ ht
  obtain ⟨t5, ht⟩ := text_at_split p _ _ _ ht
  obtain ⟨t6, ht⟩ := text_at_split p _ _ _ ht
  obtain ⟨t7, ht⟩ := text_at_split p _ _ _ ht
  obtain ⟨t8, ht⟩ := text_at_split p _ _ _ ht
  obtain ⟨t9, ht⟩ := text_at_split p _ _ _ ht
  obtain ⟨t10, ht⟩ := text_at_split p _ _ _ ht
  obtain ⟨t11, ht⟩ := text_at_split p _ _ _ ht
  obtain ⟨t12, t13⟩ := text_at_split p _ _ _ ht
  rw [lk] at t2 t3 t4 t5 t6 t7 t8 t9 t10 t11 t12 t13
  rw [le] at t4 t5 t6 t7 t8 t9 t10 t11 t12 t13
  rw [lf] at t6 t7 t8 t9 t10 t11 t12 t13
  rw [ls] at t8 t9 t10 t11 t12 t13
  rw [lh] at t10 t11 t12 t13
  rw [lt] at t12 t13
  -- the positions of the three pairs
  obtain ⟨a, ha⟩ : ∃ a, a = g0.length := ⟨_, rfl⟩
  obtain ⟨b, hb⟩ : ∃ b, b = a + 13 + D.length + g1.length := ⟨_, rfl⟩
  obtain ⟨c, hc⟩ : ∃ c, c = b + 19 + (bool_text F).length + g2.length := ⟨_, rfl⟩
  have t0 := text_at_index p _ 0 _ t0 rfl
  have t1 := text_at_index p _ a _ t1 (by omega)
  have t2 := text_at_index p _ (a + 10) _ t2 (by omega)
  have t3 := text_at_index p _ (a + 10 + D.length) _ t3 (by omega)
  have t4 := text_at_index p _ (a + 13 + D.length) _ t4 (by omega)
  have t5 := text_at_index p _ b _ t5 (by omega)
  have t6 := text_at_index p _ (b + 17) _ t6 (by omega)
  have t7 := text_at_index p _ (b + 17 + (bool_text F).length) _ t7 (by omega)
  have t8 := text_at_index p _ (b + 19 + (bool_text F).length) _ t8 (by omega)
  have t9 := text_at_index p _ c _ t9 (by omega)
  have t10 := text_at_index p _ (c + 10) _ t10 (by omega)
  have t11 := text_at_index p _ (c + 10 + S.length) _ t11 (by omega)
  have t12 := text_at_index p _ (c + 13 + S.length) _ t12 (by omega)
  have t13 := text_at_index p _ (c + 13 + S.length + g3.length) _ t13 (by omega)
  have hDi2 : ∀ k < D.length, inert_at p (a + 10 + k) := by rw [ha]; exact hDi
  have hbrace : rd p (start_hdr + (c + 13 + S.length + g3.length)) = '}'.toNat := by
    have := text_at_char p _ 0 BRACE t13 (by decide)
    exact (rd_index p _ _ _ this (by omega)).trans (by decide)
  -- the run of the loop
  obtain ⟨d1, d2⟩ := scan_descr_pair p u hl a ⟨hd, u.buffer, r⟩ D t1 t2 t3 hDq hDi2 (by omega)
  obtain ⟨s1, s2⟩ := scan_shape_pair p u hl c
    { descr_key p u hl (a + 1) ⟨hd, u.buffer, r⟩ with
      header_data := { (descr_key p u hl (a + 1) ⟨hd, u.buffer, r⟩).header_data with
        fortran_order := F } } S t9 t10 t11 hSq hSp (by omega)
  have run : (scan_from p u hl 0 ⟨hd, u.buffer, r⟩).core
      = (shape_key p u hl (c + 1)
          { descr_key p u hl (a + 1) ⟨hd, u.buffer, r⟩ with
            header_data := { (descr_key p u hl (a + 1) ⟨hd, u.buffer, r⟩).header_data with
              fortran_order := F } }).core := by
    rw [scan_quiet_text p u hl 0 g0 _ t0 hg0 (by omega)]
    rw [scan_from_index p u hl (0 + g0.length) a _ (by omega), d1]
    rw [scan_quiet_text p u hl _ g1 _ t4 hg1 (by omega)]
    rw [scan_from_index p u hl (a + 13 + D.length + g1.length) b _ (by omega)]
    rw [scan_fortran_pair p u hl b _ F t5 t6 t7 (by omega)]
    rw [scan_quiet_text p u hl _ g2 _ t8 hg2 (by omega)]
    rw [scan_from_index p u hl (b + 19 + (bool_text F).length + g2.length) c _ (by omega), s1]
    rw [scan_quiet_text p u hl _ g3 _ t12 hg3 (by omega)]
    exact scan_from_brace p u hl _ _ (by omega) hbrace
  have hbuf : (descr_key p u hl (a + 1) ⟨hd, u.buffer, r⟩).buffer = write_at u.buffer 0 D := by
    have := congrArg Prod.snd d2
    simpa [State.core] using this
  have hhdr := congrArg Prod.fst d2
  simp only [State.core] at hhdr
  have hfin := congrArg Prod.fst (run.trans s2)
  simp only [State.core] at hfin
  rw [hfin, hhdr, hbuf, byte_behind_eq]
  have ei : c + 1 = shape_index g0 D g1 F g2 := by
    simp only [shape_index]; omega
  rw [ei, ha]
  rfl

/-! ## BLOBs with a given metadata text -/

theorem ofBytes_blob_of_low (T payload : List Nat) (i : Nat) (hi : i < 10) :
    ofBytes (blob_of T payload) i
      = [147, 78, 85, 77, 80, 89, 1, 0, T.length % 256, T.length / 256].getD i 0 := by
  simp only [ofBytes, blob_of, MAGIC_NUMPY, List.cons_append, List.nil_append, List.append_assoc]
  interval_cases i <;> rfl

theorem ofBytes_blob_of_text (T payload : List Nat) (k : Nat) (hk : k < T.length) :
    ofBytes (blob_of T payload) (10 + k) = T.getD k 0 := by
  simp only [ofBytes, blob_of, MAGIC_NUMPY, List.cons_append, List.nil_append, List.append_assoc]
  have e : 10 + k = k + 10 := by omega
  rw [e]
  simp only [List.getD_cons_succ]
  rw [List.getD_append _ _ _ _ hk]

theorem blob_of_signature (T payload : List Nat) : has_signature (ofBytes (blob_of T payload)) := by
  intro i hi
  simp only [MAGIC_LEN] at hi
  simp only [rd, ofBytes_blob_of_low T payload i (by omega), MAGIC_NUMPY]
  interval_cases i <;> rfl

theorem blob_of_version (T payload : List Nat) :
    version_number (ofBytes (blob_of T payload)) = 10 := by
  simp only [version_number, rd, ofBytes_blob_of_low T payload 6 (by omega),
    ofBytes_blob_of_low T payload 7 (by omega)]
  rfl

theorem blob_of_header_length (T payload : List Nat) (h : T.length < 65536) :
    header_length_field (ofBytes (blob_of T payload)) = T.length := by
  simp only [header_length_field, rd, ofBytes_blob_of_low T payload 8 (by omega),
    ofBytes_blob_of_low T payload 9 (by omega)]
  simp only [List.getD_cons_succ, List.getD_cons_zero]
  omega

theorem blob_of_text_at (T payload : List Nat) (hb : ∀ c ∈ T, c < 256) :
    text_at (ofBytes (blob_of T payload)) 0 T := by
  intro k hk
  have e : start_hdr + 0 + k = 10 + k := by simp only [start_hdr, MAGIC_LEN, VERSION_LEN]
  rw [e, rd, ofBytes_blob_of_text T payload k hk]
  exact Nat.mod_eq_of_lt (hb _ (getD_mem T k hk))

/-- What `read_header` leaves for a BLOB with the signature, a supported
version and a header length `h` that is not zero. -/
theorem read_header_accepted (p : Mem) (hd : Header_data) (u : Uninit)
    (h : has_signature p) (hv : 10 ≤ version_number p ∧ version_number p < 20)
    (h0 : header_length_field p ≠ 0) :
    (read_header p hd u).ret = 10 + header_length_field p ∧
    (read_header p hd u).header_data
      = (scan_from p u (header_length_field p) 0 ⟨hd, u.buffer, length_reads⟩).header_data := by
  rw [read_header_of_signature p hd u h]
  have e2 : ¬ (version_number p < 10 ∨ 20 ≤ version_number p) := by omega
  simp only [e2, h0, if_false, scan_from, Nat.sub_zero, and_self]

/-- The header that `read_header` leaves for a BLOB whose metadata text is
`dict_text`. -/
theorem read_header_dict (u : Uninit) (hd : Header_data)
    (g0 D g1 : List Nat) (F : Bool) (g2 S g3 payload : List Nat)
    (hb : ∀ c ∈ dict_text g0 D g1 F g2 S g3, c < 256)
    (hlen : (dict_text g0 D g1 F g2 S g3).length < 65536)
    (hg0 : ∀ c ∈ g0, quiet c) (hg1 : ∀ c ∈ g1, quiet c) (hg2 : ∀ c ∈ g2, quiet c)
    (hg3 : ∀ c ∈ g3, quiet c)
    (hDq : ∀ c ∈ D, ¬ is_quote c)
    (hDi : ∀ k < D.length,
      inert_at (ofBytes (blob_of (dict_text g0 D g1 F g2 S g3) payload)) (g0.length + 10 + k))
    (hSq : ∀ x ∈ S, quiet x) (hSp : ∀ x ∈ S, x ≠ '('.toNat ∧ x ≠ ')'.toNat) :
    (read_header (ofBytes (blob_of (dict_text g0 D g1 F g2 S g3) payload)) hd u).ret
      = 10 + (dict_text g0 D g1 F g2 S g3).length ∧
    (read_header (ofBytes (blob_of (dict_text g0 D g1 F g2 S g3) payload)) hd u).header_data
      = dict_header u (g0.length + 1) (shape_index g0 D g1 F g2) D F S := by
  have hl := blob_of_header_length (dict_text g0 D g1 F g2 S g3) payload hlen
  have hpos : 0 < (dict_text g0 D g1 F g2 S g3).length := by
    simp only [dict_text, List.length_append]
    have : BRACE.length = 1 := by decide
    omega
  obtain ⟨h1, h2⟩ := read_header_accepted _ hd u
    (blob_of_signature (dict_text g0 D g1 F g2 S g3) payload)
    (by rw [blob_of_version]; omega) (by rw [hl]; omega)
  rw [hl] at h1 h2
  refine ⟨by rw [h1], ?_⟩
  rw [h2]
  exact scan_dict _ u _ hd _ g0 D g1 F g2 S g3 (blob_of_text_at _ payload hb) (le_refl _)
    hg0 hg1 hg2 hg3 hDq hDi hSq hSp

/-! ## Additional pairs, and the order of the pairs -/

set_option maxRecDepth 100000 in
/-- C12, as stated, fails for the additional pair `'dtype': 'x'` written
behind the three pairs: without it the descriptor decoded is `<i4`, with it
the descriptor decoded is `x` (the `d` of `dtype` with a quote sign five
characters later is taken for the key `descr`). -/
theorem C12_extra_key_counterexample :
    (read_header (ofBytes blob_i4_20) Header_data.zero Uninit.zero).header_data.descr
      = bytesOf "<i4" ∧
    (read_header (ofBytes blob_i4_20_dtype) Header_data.zero Uninit.zero).header_data.descr
      = bytesOf "x" := by
  decide

theorem quiet_extra_pair (K V : List Nat) (hK : ∀ c ∈ K, quiet c) (hV : ∀ c ∈ V, quiet c) :
    ∀ c ∈ extra_pair K V, quiet c := by
  intro c hc
  simp only [extra_pair, List.mem_append, List.mem_cons, List.mem_singleton,
    List.not_mem_nil, or_false] at hc
  rcases hc with rfl | h | (rfl | rfl | rfl) | h | rfl | rfl
  · decide
  · exact hK c h
  · decide
  · decide
  · decide
  · exact hV c h
  · decide
  · decide

theorem quiet_append (a b : List Nat) (ha : ∀ c ∈ a, quiet c) (hb : ∀ c ∈ b, quiet c) :
    ∀ c ∈ a ++ b, quiet c := by
  intro c hc
  rcases List.mem_append.1 hc with h | h
  · exact ha c h
  · exact hb c h

theorem dict_header_independent (u : Uninit) (i j k l : Nat) (D : List Nat) (F : Bool)
    (S : List Nat) (hd : u.desc_tail i = u.desc_tail j) (ht : u.tuple_tail k = u.tuple_tail l) :
    dict_header u i k D F S = dict_header u j l D F S := by
  simp only [dict_header, hd, ht]

/-- C12, amended: for the metadata text `g0 'descr': 'D', g1 'fortran_order':
F, g2 'shape': (S), g3 }` (`g0` .. `g3` quiet texts, numpy writes `{` and
nothing), inserting one additional pair `'K': V, ` before the first pair,
between two pairs or behind the last leaves the header that `read_header`
decodes unchanged, when the key `K` and the value `V` hold none of the
characters `d`, `s`, `f`, `}`, the characters of the descriptor are passed
by the main loop without effect in both texts, and both calls find the
same uninitialised memory, whose contents do not depend on the index of
the key. -/
theorem C12_quiet_pair_ignored (u : Uninit) (hd hd2 : Header_data) (pos : Nat)
    (K V g0 D g1 : List Nat) (F : Bool) (g2 S g3 payload payload2 : List Nat)
    (hu : ∀ i j, u.desc_tail i = u.desc_tail j ∧ u.tuple_tail i = u.tuple_tail j)
    (hK : ∀ c ∈ K, quiet c) (hV : ∀ c ∈ V, quiet c)
    (hb : ∀ c ∈ dict_text g0 D g1 F g2 S g3, c < 256)
    (hb2 : ∀ c ∈ dict_text_with (extra_pair K V) pos g0 D g1 F g2 S g3, c < 256)
    (hlen2 : (dict_text_with (extra_pair K V) pos g0 D g1 F g2 S g3).length < 65536)
    (hg0 : ∀ c ∈ g0, quiet c) (hg1 : ∀ c ∈ g1, quiet c) (hg2 : ∀ c ∈ g2, quiet c)
    (hg3 : ∀ c ∈ g3, quiet c)
    (hDq : ∀ c ∈ D, ¬ is_quote c)
    (hDi : ∀ k < D.length,
      inert_at (ofBytes (blob_of (dict_text g0 D g1 F g2 S g3) payload)) (g0.length + 10 + k))
    (hDi2 : ∀ k < D.length,
      inert_at (ofBytes (blob_of (dict_text_with (extra_pair K V) pos g0 D g1 F g2 S g3)
        payload2)) ((gap0_with (extra_pair K V) pos g0).length + 10 + k))
    (hSq : ∀ x ∈ S, quiet x) (hSp : ∀ x ∈ S, x ≠ '('.toNat ∧ x ≠ ')'.toNat) :
    (read_header (ofBytes (blob_of (dict_text_with (extra_pair K V) pos g0 D g1 F g2 S g3)
        payload2)) hd2 u).header_data
      = (read_header (ofBytes (blob_of (dict_text g0 D g1 F g2 S g3) payload)) hd u).header_data := by
  have hX := quiet_extra_pair K V hK hV
  have hlen : (dict_text g0 D g1 F g2 S g3).length < 65536 := by
    refine Nat.lt_of_le_of_lt ?_ hlen2
    unfold dict_text_with
    split <;> simp only [dict_text, List.length_append] <;> omega
  rw [(read_header_dict u hd g0 D g1 F g2 S g3 payload hb hlen hg0 hg1 hg2 hg3 hDq hDi hSq hSp).2]
  match pos, hb2, hlen2, hDi2 with
  | 0, hb2, hlen2, hDi2 =>
    simp only [dict_text_with, gap0_with, if_true] at hb2 hlen2 hDi2 ⊢
    rw [(read_header_dict u hd2 (g0 ++ extra_pair K V) D g1 F g2 S g3 payload2 hb2 hlen2
      (quiet_append _ _ hg0 hX) hg1 hg2 hg3 hDq hDi2 hSq hSp).2]
    exact dict_header_independent u _ _ _ _ D F S (hu _ _).1 (hu _ _).2
  | 1, hb2, hlen2, hDi2 =>
    simp only [dict_text_with, gap0_with, Nat.succ_ne_zero, if_false] at hb2 hlen2 hDi2 ⊢
    rw [(read_header_dict u hd2 g0 D (g1 ++ extra_pair K V) F g2 S g3 payload2 hb2 hlen2
      hg0 (quiet_append _ _ hg1 hX) hg2 hg3 hDq hDi2 hSq hSp).2]
    exact dict_header_independent u _ _ _ _ D F S (hu _ _).1 (hu _ _).2
  | 2, hb2, hlen2, hDi2 =>
    simp only [dict_text_with, gap0_with, Nat.succ_ne_zero, if_false] at hb2 hlen2 hDi2 ⊢
    rw [(read_header_dict u hd2 g0 D g1 F (g2 ++ extra_pair K V) S g3 payload2 hb2 hlen2
      hg0 hg1 (quiet_append _ _ hg2 hX) hg3 hDq hDi2 hSq hSp).2]
    exact dict_header_independent u _ _ _ _ D F S (hu _ _).1 (hu _ _).2
  | n + 3, hb2, hlen2, hDi2 =>
    simp only [dict_text_with, gap0_with, Nat.succ_ne_zero, if_false] at hb2 hlen2 hDi2 ⊢
    rw [(read_header_dict u hd2 g0 D g1 F g2 S (extra_pair K V ++ g3) payload2 hb2 hlen2
      hg0 hg1 hg2 (quiet_append _ _ hX hg3) hDq hDi2 hSq hSp).2]

set_option maxRecDepth 100000 in
/-- C12 for the pair `'k': 1, ` inserted between the first and the second
pair of the metadata of `blob_i4_20`. -/
theorem C12_quiet_pair_ignored_witness :
    (read_header (ofBytes (blob_of (dict_text_with (extra_pair (bytesOf "k") (bytesOf "1")) 1
        (bytesOf "\x7b") (bytesOf "<i4") [] false [] (bytesOf "20,") []) []))
      Header_data.zero Uninit.zero).header_data
      = (read_header (ofBytes (blob_of (dict_text (bytesOf "\x7b") (bytesOf "<i4") [] false []
          (bytesOf "20,") []) [])) Header_data.zero Uninit.zero).header_data :=
  C12_quiet_pair_ignored Uninit.zero Header_data.zero Header_data.zero 1
    (bytesOf "k") (bytesOf "1") (bytesOf "\x7b") (bytesOf "<i4") [] false []
    (bytesOf "20,") [] [] [] (fun _ _ => ⟨rfl, rfl⟩)
    (by decide) (by decide) (by decide) (by decide) (by decide) (by decide) (by decide)
    (by decide) (by decide) (by decide) (by decide) (by decide) (by decide) (by decide)

set_option maxRecDepth 100000 in
/-- C13 fails for the three 8-byte floats of `blob_f8_3` (uninitialised
memory all zero): with the pairs in the order `descr`, `fortran_order`,
`shape` the header decoded has the shape `[3, 8]` and the size 24, with the
same pairs in the order `shape`, `descr`, `fortran_order` it has the shape
`[3]` and the size 3. -/
theorem C13_key_order_f8_3 :
    (read_header (ofBytes blob_f8_3) Header_data.zero Uninit.zero).header_data.shape = [3, 8] ∧
    (read_header (ofBytes blob_f8_3) Header_data.zero Uninit.zero).header_data.size = 24 ∧
    (read_header (ofBytes blob_f8_3_shape_first) Header_data.zero
      Uninit.zero).header_data.shape = [3] ∧
    (read_header (ofBytes blob_f8_3_shape_first) Header_data.zero
      Uninit.zero).header_data.size = 3 ∧
    (read_header (ofBytes blob_f8_3_shape_first) Header_data.zero
      Uninit.zero).header_data.descr = bytesOf "<f8" ∧
    (read_header (ofBytes blob_f8_3_shape_first) Header_data.zero
      Uninit.zero).header_data.fortran_order = false := by
  decide

/-! ## The entries of the shape -/

theorem split_commas_ne_nil (S : List Nat) : split_commas S ≠ [] := by
  cases S with
  | nil => simp [split_commas]
  | cons c cs =>
    unfold split_commas
    split
    · simp
    · split <;> simp

theorem strtok_tokens_split (S cur : List Nat) :
    strtok_tokens ','.toNat S cur
      = (match split_commas S with
         | [] => [cur]
         | t :: ts => (cur ++ t) :: ts).filter (fun t => !t.isEmpty) := by
  induction S generalizing cur with
  | nil =>
    cases cur <;> simp [strtok_tokens, split_commas]
  | cons c cs ih =>
    unfold strtok_tokens split_commas
    by_cases hc : c = ','.toNat
    · have h0 := ih []
      rw [if_pos hc, if_pos hc, h0]
      cases hs : split_commas cs with
      | nil => exact absurd hs (split_commas_ne_nil cs)
      | cons t ts =>
        cases cur <;> simp
    · rw [if_neg hc, if_neg hc, ih (cur ++ [c])]
      cases hs : split_commas cs with
      | nil => exact absurd hs (split_commas_ne_nil cs)
      | cons t ts => simp

theorem strtok_tokens_comma (S : List Nat) :
    strtok_tokens ','.toNat S [] = comma_tokens S := by
  rw [strtok_tokens_split, comma_tokens]
  cases hs : split_commas S with
  | nil => exact absurd hs (split_commas_ne_nil S)
  | cons t ts => simp

theorem cstr_append_nul (S t : List Nat) (h : ∀ c ∈ S, c ≠ 0) :
    cstr ((S ++ [0]) ++ t) = S := by
  induction S with
  | nil => simp [cstr]
  | cons c cs ih =>
    have hc : c ≠ 0 := h c (List.mem_cons_self _ _)
    have := ih (fun x hx => h x (List.mem_cons_of_mem _ hx))
    simp only [cstr, List.cons_append, List.takeWhile_cons, bne_iff_ne, ne_eq, hc,
      not_false_eq_true, decide_True, if_true] at this ⊢
    simpa using this

theorem tuple_char_facts (c : Nat) (h : tuple_char c) :
    quiet c ∧ (c ≠ '('.toNat ∧ c ≠ ')'.toNat) ∧ c ≠ 0 := by
  have hc : c < 58 := by
    rcases h with h | h | h
    · simp only [isdigit, Bool.and_eq_true, decide_eq_true_eq] at h; omega
    · rw [h]; decide
    · rw [h]; decide
  revert h
  interval_cases c <;> decide

theorem blob_i4_3_blank_eq :
    blob_i4_3_blank = blob_of (dict_text (bytesOf "\x7b") (bytesOf "<i4") [] false []
      (bytesOf "3, ") []) ((List.range 3).flatMap (le_word 4)) := by
  decide

theorem strtok_tokens_blank (b : Nat) (t : List Nat) :
    2 ≤ ((strtok_tokens ','.toNat (cstr ((bytesOf "3, " ++ [b]) ++ t)) []).map atoi).length := by
  have e : cstr ((bytesOf "3, " ++ [b]) ++ t) = 51 :: 44 :: 32 :: cstr (b :: t) := by
    simp [cstr, bytesOf]
  have e2 : strtok_tokens ','.toNat (51 :: 44 :: 32 :: cstr (b :: t)) []
      = [51] :: strtok_tokens ','.toNat (cstr (b :: t)) [32] := by
    simp [strtok_tokens]
  rw [e, e2]
  have h := strtok_tokens_ne_nil ','.toNat (cstr (b :: t)) [32] (by simp)
  cases hs : strtok_tokens ','.toNat (cstr (b :: t)) [32] with
  | nil => exact absurd hs h
  | cons x xs => simp

/-- The version bytes of the BLOBs with the signature that `read_header`
does not reject with -2: major 1 with a minor below 10, or major 0 with a
minor from 10 to 19. -/
theorem read_header_version_bytes (p : Mem) (hd : Header_data) (u : Uninit)
    (h : has_signature p) :
    (read_header p hd u).ret ≠ -2 ↔
      ((rd p 6 = 1 ∧ rd p 7 < 10) ∨ (rd p 6 = 0 ∧ 10 ≤ rd p 7 ∧ rd p 7 < 20)) := by
  have hv : (read_header p hd u).ret = -2 ↔ (version_number p < 10 ∨ 20 ≤ version_number p) := by
    rw [read_header_of_signature p hd u h]
    by_cases hv : version_number p < 10 ∨ 20 ≤ version_number p
    · simp [hv]
    · simp only [hv, if_false, iff_false]
      by_cases h0 : header_length_field p = 0
      · simp [h0]
      · simp only [h0, if_false]
        omega
  rw [Ne, hv]
  unfold version_number
  omega

set_option maxRecDepth 100000 in
/-- C21, the code at the failing input: the BLOB `blob_version_0_10` starts
with the signature and its major version byte is 0, its minor version byte
10; `read_header` does not return -2: it returns the payload offset and
decodes the descriptor `<i4` and the shape, as it does for version 1.0. -/
theorem C21_version_0_10 :
    has_signature (ofBytes blob_version_0_10) ∧
    rd (ofBytes blob_version_0_10) 6 = 0 ∧ rd (ofBytes blob_version_0_10) 7 = 10 ∧
    (read_header (ofBytes blob_version_0_10) Header_data.zero Uninit.zero).ret ≠ -2 ∧
    (read_header (ofBytes blob_version_0_10) Header_data.zero Uninit.zero).ret
      = 10 + header_length_field (ofBytes blob_version_0_10) ∧
    (read_header (ofBytes blob_version_0_10) Header_data.zero Uninit.zero).header_data.descr
      = bytesOf "<i4" ∧
    (read_header (ofBytes blob_version_0_10) Header_data.zero Uninit.zero).header_data.shape
      = [20] := by
  refine ⟨by decide, by decide, by decide, by decide, by decide, by decide, by decide⟩

/-! ## The length of the text in `out` -/

theorem snprintf16_length (t : List Char) : (snprintf16 t).length ≤ 15 := by
  simp only [snprintf16, List.length_take]
  omega

theorem int_loop_length (p : Mem) (data w n j : Nat) (o : Out) :
    (int_loop p data w n j o).text.length ≤ o.text.length + 15 * n := by
  induction n generalizing j o with
  | zero => simp [int_loop]
  | succ n ih =>
    unfold int_loop
    split
    · refine le_trans (ih _ _) ?_
      have := snprintf16_length (decimal ‹Int› ++ ['\t'])
      simp only [Out.add, List.length_append] at this ⊢
      omega
    · omega

theorem float_loop_length (f : Printf) (p : Mem) (data w n j : Nat) (o : Out) :
    (float_loop f p data w n j o).text.length ≤ o.text.length + 15 * n := by
  induction n generalizing j o with
  | zero => simp [float_loop]
  | succ n ih =>
    unfold float_loop
    split
    · refine le_trans (ih _ _) ?_
      have := snprintf16_length (f.g_float w (word_bytes p (data + w * j) w) ++ ['\t'])
      simp only [Out.add, List.length_append] at this ⊢
      omega
    · omega

theorem complex_loop_length (f : Printf) (p : Mem) (data w n j : Nat) (o : Out) :
    (complex_loop f p data w n j o).text.length ≤ o.text.length + 15 * n := by
  induction n generalizing j o with
  | zero => simp [complex_loop]
  | succ n ih =>
    unfold complex_loop
    split
    · refine le_trans (ih _ _) ?_
      have := snprintf16_length (['('] ++ f.g_creal w (word_bytes p (data + w / 2 * j) (w / 2))
        (word_bytes p (data + w / 2 * (j + 1)) (w / 2)) ++ [','] ++
        f.g_cimag w (word_bytes p (data + w / 2 * j) (w / 2))
          (word_bytes p (data + w / 2 * (j + 1)) (w / 2)) ++ [')', '\t'])
      simp only [Out.add, List.length_append] at this ⊢
      omega
    · omega

theorem render_length (f : Printf) (p : Mem) (hd : Header_data) (data : Nat) (N : Int)
    (o : Out) (hN : N ≤ 15) :
    (render f p hd data N o).text.length ≤ o.text.length + 15 * 15 := by
  have hn : N.toNat ≤ 15 := by omega
  unfold render
  split
  · omega
  · split
    · have := int_loop_length p data hd.wordsize_in_bytes N.toNat 0 o
      omega
    · split
      · have := float_loop_length f p data hd.wordsize_in_bytes N.toNat 0 o
        omega
      · split
        · have := complex_loop_length f p data hd.wordsize_in_bytes N.toNat 0 o
          omega
        · split
          · simp [Out.add]
          · simp [Out.add]

theorem marker_length (n : Nat) (c : Int) : (marker n c).length ≤ 3 := by
  unfold marker
  split <;> simp [ELLIPSIS]

/-- C22: for a BLOB that `read_header` accepts and an output buffer that
starts empty, the text that `BLOB_to_str` leaves in `out` has at most
`15 * 15 + 3` characters, whatever the kind, the word size, the shape and
the floating-point formatting; with its terminating NUL it fits the 256
bytes of `out`. -/
theorem C22_out_capacity (f : Printf) (p : Mem) (u : Uninit)
    (hacc : 0 ≤ (decoded p u).ret) (hout : u.out = []) :
    (BLOB_to_str f p u).val.length ≤ 15 * 15 + 3 ∧
    (BLOB_to_str f p u).val.length ≤ 255 ∧
    (BLOB_to_str f p u).val.length + 1 ≤ OUT_SIZE := by
  have hN : (if 15 > (decoded p u).header_data.size then (decoded p u).header_data.size
      else 15) ≤ 15 := by
    split <;> omega
  have h1 := render_length f p (decoded p u).header_data (decoded p u).ret.toNat _
    ⟨u.out, (decoded p u).reads⟩ hN
  have h2 := marker_length (preview_count (decoded p u).header_data.size)
    (decoded p u).header_data.size
  rw [BLOB_to_str_val f p u hacc, List.length_append]
  simp only [hout, List.length_nil, OUT_SIZE] at h1 ⊢
  omega

set_option maxRecDepth 100000 in
/-- C22 at the twenty integers of `blob_i4_20`. -/
theorem C22_out_capacity_witness :
    (BLOB_to_str Printf.blank (ofBytes blob_i4_20) Uninit.zero).val.length ≤ 255 :=
  (C22_out_capacity Printf.blank (ofBytes blob_i4_20) Uninit.zero (by decide) rfl).2.1
end Blopy
